import Mathlib

/-!
Verification of the wdmt (Web Developer Maintenance Tool) core: the
Security Validator, the Deletion Engine and the Concurrent Scanner.

The Go sources are shallowly embedded as follows.

Strings: Go strings are byte sequences that need not be valid UTF-8, so a
Go string is modelled as `List Nat` (one `Nat` per byte).  The byte 47 is
the path separator, 46 is a dot, 0 is the NUL byte.  `ascii` injects an
ASCII Lean string literal into this representation.

Paths: `filepathClean`, `filepathAbs`, `filepathRel` and `filepathJoin`
model the lexical `path/filepath` functions of the Go standard library on
Unix (separator `/`), following their documented rewrite rules.

Filesystem: a snapshot of the filesystem is a rooted tree `FsTree` whose
nodes are regular files (with contents and a device id), symbolic links
(with a destination string and a device id) and directories (with a named
entry list and a device id).  `walkT` resolves an absolute path segment
list against the tree without ever following a symbolic link; this models
`os.Lstat`-style, non-following access, which is the only access mode the
verified code paths rely on.  `removeSegs` models `os.Remove` (removes a
file, a link, or an empty directory; fails otherwise and leaves the tree
unchanged) and `removeAllSegs` models `os.RemoveAll` (unconditionally
removes the whole subtree).

Concurrency: the scanner's worker pool and bounded channels are reduced to
their sequential semantics (the single execution in which no queued item
is dropped); the deletion engine runs one job, which is sequential in the
source as well.
-/

namespace Wdmt

/-- GoStr is the model of a Go string: a list of bytes. -/
abbrev GoStr := List Nat

/-- ascii embeds an ASCII string literal as its list of bytes (for ASCII
strings the UTF-8 bytes coincide with the code points). -/
def ascii (s : String) : GoStr := s.data.map Char.toNat

/-- utf8Cont recognises a UTF-8 continuation byte (0x80 to 0xBF). -/
def utf8Cont (b : Nat) : Bool := 128 ≤ b && b ≤ 191

/-- utf8ValidString models Go `utf8.ValidString` on the byte list: it
accepts exactly well-formed UTF-8 (the first-byte table of the Go `utf8`
package, which excludes overlong encodings, surrogates and code points
above U+10FFFF). -/
def utf8ValidString : GoStr → Bool
  | [] => true
  | b :: r =>
    if b < 128 then utf8ValidString r
    else if 194 ≤ b && b ≤ 223 then
      match r with
      | b1 :: r2 => utf8Cont b1 && utf8ValidString r2
      | [] => false
    else if b = 224 then
      match r with
      | b1 :: b2 :: r2 => (160 ≤ b1 && b1 ≤ 191) && utf8Cont b2 && utf8ValidString r2
      | _ => false
    else if 225 ≤ b && b ≤ 236 then
      match r with
      | b1 :: b2 :: r2 => utf8Cont b1 && utf8Cont b2 && utf8ValidString r2
      | _ => false
    else if b = 237 then
      match r with
      | b1 :: b2 :: r2 => (128 ≤ b1 && b1 ≤ 159) && utf8Cont b2 && utf8ValidString r2
      | _ => false
    else if 238 ≤ b && b ≤ 239 then
      match r with
      | b1 :: b2 :: r2 => utf8Cont b1 && utf8Cont b2 && utf8ValidString r2
      | _ => false
    else if b = 240 then
      match r with
      | b1 :: b2 :: b3 :: r2 =>
        (144 ≤ b1 && b1 ≤ 191) && utf8Cont b2 && utf8Cont b3 && utf8ValidString r2
      | _ => false
    else if 241 ≤ b && b ≤ 243 then
      match r with
      | b1 :: b2 :: b3 :: r2 =>
        utf8Cont b1 && utf8Cont b2 && utf8Cont b3 && utf8ValidString r2
      | _ => false
    else if b = 244 then
      match r with
      | b1 :: b2 :: b3 :: r2 =>
        (128 ≤ b1 && b1 ≤ 143) && utf8Cont b2 && utf8Cont b3 && utf8ValidString r2
      | _ => false
    else false

/-- goContains models `strings.Contains s sub`: sub occurs as a contiguous
substring of s. -/
def goContains (sub : GoStr) : GoStr → Bool
  | [] => sub.isEmpty
  | a :: t => sub.isPrefixOf (a :: t) || goContains sub t

/-- goHasPrefix models `strings.HasPrefix s pre`. -/
def goHasPrefix (s pre : GoStr) : Bool := pre.isPrefixOf s

/-- isRooted tells whether a path byte string is absolute (starts with the
separator byte 47), as in Go `filepath.IsAbs` on Unix. -/
def isRooted (p : GoStr) : Bool :=
  match p with
  | [] => false
  | b :: _ => b = 47

/-- splitSlash cuts a byte string at every separator byte, keeping empty
segments (the raw `/`-split underlying the Clean algorithm). -/
def splitSlash (p : GoStr) : List GoStr := p.splitOn 47

/-- joinSegs renders a segment list with a single separator between
consecutive segments. -/
def joinSegs (segs : List GoStr) : GoStr := List.intercalate [47] segs

/-- cleanRev is the stack pass of `filepath.Clean`: it pushes the segments
of the input onto a reversed output stack, dropping empty and dot
segments, and resolving a dot-dot segment against the stack (popping a
previous real segment; at the top of a rooted path it vanishes, at the top
of a relative path it is kept). -/
def cleanRev (rooted : Bool) : List GoStr → List GoStr → List GoStr
  | stack, [] => stack
  | stack, seg :: rest =>
    if seg = [] || seg = [46] then cleanRev rooted stack rest
    else if seg = [46, 46] then
      match stack with
      | [] =>
        if rooted then cleanRev rooted [] rest
        else cleanRev rooted [[46, 46]] rest
      | top :: stk =>
        if top = [46, 46] then cleanRev rooted ([46, 46] :: top :: stk) rest
        else cleanRev rooted stk rest
    else cleanRev rooted (seg :: stack) rest

/-- cleanSegs is the segment-level core of `filepath.Clean`. -/
def cleanSegs (rooted : Bool) (segs : List GoStr) : List GoStr :=
  (cleanRev rooted [] segs).reverse

/-- filepathClean models Go `filepath.Clean` on Unix, by its documented
rewrite rules: collapse multiple separators, drop `.` elements, resolve
`..` against preceding elements, drop `..` at the start of a rooted path;
the empty path cleans to `.`. -/
def filepathClean (p : GoStr) : GoStr :=
  let segs := cleanSegs (isRooted p) (splitSlash p)
  if isRooted p then
    if segs = [] then [47] else 47 :: joinSegs segs
  else
    if segs = [] then [46] else joinSegs segs

/-- filepathAbs models Go `filepath.Abs` given the process working
directory cwd: an already absolute path is cleaned, a relative path is
joined to cwd and cleaned (this is what `filepath.Join(cwd, path)`
produces).  The only failure mode of the real function is a failure of
`os.Getwd`, which the model has no counterpart for, so the model is
total. -/
def filepathAbs (cwd p : GoStr) : GoStr :=
  if isRooted p then filepathClean p else filepathClean (cwd ++ [47] ++ p)

/-- filepathJoin models Go `filepath.Join` of two elements: concatenation
with a separator, followed by Clean. -/
def filepathJoin (p name : GoStr) : GoStr := filepathClean (p ++ [47] ++ name)

/-- segsOf decomposes a path into its non-empty segments; on the cleaned
absolute paths the model manipulates this is the exact segment list. -/
def segsOf (p : GoStr) : List GoStr := (splitSlash p).filter (fun s => s ≠ [])

/-- renderAbs renders an absolute path from its segment list (the inverse
of segsOf on well-formed segment lists). -/
def renderAbs (segs : List GoStr) : GoStr :=
  if segs = [] then [47] else 47 :: joinSegs segs

/-- dropCommon removes the longest common prefix of two segment lists. -/
def dropCommon : List GoStr → List GoStr → List GoStr × List GoStr
  | a :: as_, b :: bs => if a = b then dropCommon as_ bs else (a :: as_, b :: bs)
  | as_, bs => (as_, bs)

/-- filepathRel models Go `filepath.Rel(base, targ)` for the cleaned
absolute base and target paths the validator feeds it: after dropping the
common segment prefix, one `..` per remaining base segment followed by the
remaining target segments (`.` when nothing remains). -/
def filepathRel (base targ : GoStr) : GoStr :=
  let p := dropCommon (segsOf (filepathClean base)) (segsOf (filepathClean targ))
  if p.1 = [] then
    if p.2 = [] then [46] else joinSegs p.2
  else
    joinSegs (List.replicate p.1.length [46, 46] ++ p.2)

/-- goodSeg recognises a byte string that can occur as a real directory
entry name: non-empty, not a dot or dot-dot, and free of the separator
byte. -/
def goodSeg (s : GoStr) : Bool :=
  s ≠ [] && s ≠ [46] && s ≠ [46, 46] && !s.contains 47

/-- goodSegs recognises a list of such names. -/
def goodSegs (l : List GoStr) : Bool := l.all goodSeg

/-- isGoodAbs recognises the cleaned absolute paths whose segments are all
real names: exactly the paths fixed by renderAbs of their own segments. -/
def isGoodAbs (p : GoStr) : Bool := goodSegs (segsOf p) && p = renderAbs (segsOf p)

/-- filepathDir models Go `filepath.Dir`: everything up to and including
the final separator, then cleaned. -/
def filepathDir (p : GoStr) : GoStr :=
  filepathClean ((p.reverse.dropWhile (fun b => b ≠ 47)).reverse)

/-- FsTree is a snapshot of the filesystem below the root: regular files
carry their byte contents and device id, symbolic links carry their
destination string and device id, directories carry a named entry list and
a device id. -/
inductive FsTree where
  | file (content : List Nat) (dev : Nat)
  | link (dest : GoStr) (dev : Nat)
  | dir (entries : List (GoStr × FsTree)) (dev : Nat)

/-- lookupEntry finds the first entry with the given name. -/
def lookupEntry (name : GoStr) : List (GoStr × FsTree) → Option FsTree
  | [] => none
  | (n, t) :: rest => if n = name then some t else lookupEntry name rest

/-- eraseEntry removes the first entry with the given name. -/
def eraseEntry (name : GoStr) : List (GoStr × FsTree) → List (GoStr × FsTree)
  | [] => []
  | (n, t) :: rest => if n = name then rest else (n, t) :: eraseEntry name rest

/-- updateEntry replaces the subtree of the first entry with the given
name. -/
def updateEntry (name : GoStr) (nt : FsTree) :
    List (GoStr × FsTree) → List (GoStr × FsTree)
  | [] => []
  | (n, t) :: rest =>
    if n = name then (n, nt) :: rest else (n, t) :: updateEntry name nt rest

/-- walkT resolves an absolute path, given as its segment list, against
the tree, never following a symbolic link in any position (the access mode
of `os.Lstat`; a path that would pass through a link or a file does not
resolve). -/
def walkT : FsTree → List GoStr → Option FsTree
  | t, [] => some t
  | FsTree.dir es _, n :: rest =>
    match lookupEntry n es with
    | some t => walkT t rest
    | none => none
  | _, _ :: _ => none

/-- isLinkT tests the symbolic-link mode bit of a node. -/
def isLinkT : FsTree → Bool
  | FsTree.link _ _ => true
  | _ => false

/-- isDirT models `FileInfo.IsDir`. -/
def isDirT : FsTree → Bool
  | FsTree.dir _ _ => true
  | _ => false

/-- devT models the `Dev` field of `syscall.Stat_t`. -/
def devT : FsTree → Nat
  | FsTree.file _ d => d
  | FsTree.link _ d => d
  | FsTree.dir _ d => d

/-- NodeKind is the file-type part of a stat result. -/
inductive NodeKind where
  | file
  | link
  | dir
  deriving DecidableEq

/-- kindOf projects a node to its file type. -/
def kindOf : FsTree → NodeKind
  | FsTree.file _ _ => NodeKind.file
  | FsTree.link _ _ => NodeKind.link
  | FsTree.dir _ _ => NodeKind.dir

/-- sigT is the stat signature (file type and device id) of a path: the
only information about the filesystem the Security Validator reads. -/
def sigT (g : FsTree) (q : List GoStr) : Option (NodeKind × Nat) :=
  (walkT g q).map (fun t => (kindOf t, devT t))

/-- contentAt reads the byte contents of a regular file at a path. -/
def contentAt (g : FsTree) (q : List GoStr) : Option (List Nat) :=
  match walkT g q with
  | some (FsTree.file c _) => some c
  | _ => none

/-- removable tells whether `os.Remove` can delete a node: files and links
always, directories only when empty. -/
def removable : FsTree → Bool
  | FsTree.dir es _ => es.isEmpty
  | _ => true

/-- removeSegs models `os.Remove`: it deletes the file, link or empty
directory at the path and reports success; on any failure (missing path,
non-empty directory, path through a non-directory) the tree is returned
unchanged with failure reported. -/
def removeSegs : FsTree → List GoStr → FsTree × Bool
  | t, [] => (t, false)
  | FsTree.dir es d, n :: rest =>
    match lookupEntry n es with
    | none => (FsTree.dir es d, false)
    | some t =>
      if rest.isEmpty then
        if removable t then (FsTree.dir (eraseEntry n es) d, true)
        else (FsTree.dir es d, false)
      else
        let r := removeSegs t rest
        (FsTree.dir (updateEntry n r.1 es) d, r.2)
  | t, _ :: _ => (t, false)

/-- removeAllSegs models `os.RemoveAll`: it deletes the whole subtree at
the path, whatever it contains, and is a no-op when the path is missing. -/
def removeAllSegs : FsTree → List GoStr → FsTree
  | t, [] => t
  | FsTree.dir es d, n :: rest =>
    match lookupEntry n es with
    | none => FsTree.dir es d
    | some t =>
      if rest.isEmpty then FsTree.dir (eraseEntry n es) d
      else FsTree.dir (updateEntry n (removeAllSegs t rest) es) d
  | t, _ :: _ => t

/-- hasKey tells whether an entry list contains an entry with the given
name. -/
def hasKey (n : GoStr) (es : List (GoStr × FsTree)) : Bool :=
  es.any (fun e => e.1 = n)

mutual
/-- goodTree is the wellformedness of a filesystem snapshot: in every
directory, entry names are real names (non-empty, not dot or dot-dot,
separator-free) and pairwise distinct, as the kernel guarantees for real
directories. -/
def goodTree : FsTree → Bool
  | FsTree.dir es _ => goodEntries es
  | _ => true
/-- goodEntries is goodTree for an entry list. -/
def goodEntries : List (GoStr × FsTree) → Bool
  | [] => true
  | (n, t) :: rest => goodSeg n && !hasKey n rest && goodTree t && goodEntries rest
end

/-- Reason enumerates the `SecurityError` reason strings of the source. -/
inductive Reason where
  | invalidUTF8
  | nullBytes
  | normalizationMismatch
  | outsideWorkingDir
  | cannotDeleteWorkingDir
  | traversal
  | crossesFilesystemBoundary
  | parentSymlink (parent : GoStr)
  deriving DecidableEq

/-- SecurityError models the `SecurityError` value of the source: the
offending path and the reason. -/
structure SecurityError where
  path : GoStr
  reason : Reason
  deriving DecidableEq

/-- Cleaner is the validator context: the canonical absolute working
directory and its device id (0 plays the role of the unknown device, as
in the source where the `uint64` field keeps its zero value when the
`syscall.Stat_t` cast fails). -/
structure Cleaner where
  workingDir : GoStr
  workingDirDev : Nat
  deriving DecidableEq

/-- resolveSegs is how a possibly relative textual path reaches the
filesystem model: made absolute against the process working directory and
decomposed into segments.  Resolution is lexical, which matches the kernel
exactly on the cleaned absolute paths the verified flows pass around. -/
def resolveSegs (cwd p : GoStr) : List GoStr := segsOf (filepathAbs cwd p)

/-- cleanerNew models `cleaner.New`: resolve the working directory, stat
it without following links, require a non-symlink directory, and record
its device id. -/
def cleanerNew (cwd : GoStr) (fs : FsTree) (workingDir : GoStr) : Option Cleaner :=
  let absWd := filepathAbs cwd workingDir
  match walkT fs (segsOf absWd) with
  | none => none
  | some node =>
    if !isDirT node then none
    else if isLinkT node then none
    else some ⟨absWd, devT node⟩

/-- vpcLoop is the ancestor walk of `validatePathComponents`: starting
from the candidate, repeatedly take `filepath.Dir`, stopping when the
parent equals the current path or the working directory; an ancestor that
stats as a symbolic link is rejected.  The fuel argument only bounds the
ascent; the wrapper passes more fuel than a path of that byte length can
ever consume, so the fuel never runs out on the paths the validator
produces. -/
def vpcLoop (c : Cleaner) (fs : FsTree) (orig : GoStr) :
    Nat → GoStr → Option SecurityError
  | 0, _ => none
  | fuel + 1, current =>
    let parent := filepathDir current
    if parent = current || parent = c.workingDir then none
    else
      match walkT fs (segsOf parent) with
      | some node =>
        if isLinkT node then some ⟨orig, Reason.parentSymlink parent⟩
        else vpcLoop c fs orig fuel parent
      | none => vpcLoop c fs orig fuel parent

/-- validatePathComponents models the ancestor symlink scan of the
source: every intermediate directory strictly between the candidate and
the working directory must not be a symbolic link. -/
def validatePathComponents (c : Cleaner) (fs : FsTree) (p : GoStr) : Option SecurityError :=
  vpcLoop c fs p (p.length + 2) p

/-- validatePathSecurity models the Security Validator: UTF-8 validity,
null-byte absence, canonical-form match of the absolute path, containment
under the working directory with the working directory itself rejected,
the relative-path dot-dot re-check, the device boundary check (skipped
when the working device is unknown or the stat fails), and the ancestor
symlink scan; `none` is ALLOW, `some` is DENY with its reason. -/
def validatePathSecurity (cwd : GoStr) (c : Cleaner) (fs : FsTree) (path : GoStr) :
    Option SecurityError :=
  if !utf8ValidString path then some ⟨path, Reason.invalidUTF8⟩
  else if goContains [0] path then some ⟨path, Reason.nullBytes⟩
  else
    let absPath := filepathAbs cwd path
    if absPath ≠ filepathClean absPath then some ⟨path, Reason.normalizationMismatch⟩
    else if !goHasPrefix (absPath ++ [47]) (c.workingDir ++ [47]) then
      some ⟨path, Reason.outsideWorkingDir⟩
    else if absPath = c.workingDir then some ⟨path, Reason.cannotDeleteWorkingDir⟩
    else
      let rel := filepathRel c.workingDir absPath
      if goHasPrefix rel [46, 46] || goContains [47, 46, 46] rel then
        some ⟨path, Reason.traversal⟩
      else if c.workingDirDev ≠ 0 &&
          (match walkT fs (segsOf absPath) with
           | some node => devT node ≠ c.workingDirDev
           | none => false) then
        some ⟨path, Reason.crossesFilesystemBoundary⟩
      else validatePathComponents c fs absPath

/-- CleanupTarget models the scanner's result record. -/
structure CleanupTarget where
  path : GoStr
  name : GoStr
  size : Int
  ctype : GoStr
  selected : Bool
  deriving DecidableEq

/-- ValidateTargets models the deletion engine's pre-filter: each
candidate is kept exactly when the Security Validator allows it and a
non-following stat finds an existing, non-symlink directory; every other
candidate is skipped and the scan of the remaining candidates continues.
The Go function's error result is constantly nil, so the model returns
the surviving list only. -/
def ValidateTargets (cwd : GoStr) (c : Cleaner) (fs : FsTree) :
    List CleanupTarget → List CleanupTarget
  | [] => []
  | t :: rest =>
    if (validatePathSecurity cwd c fs t.path).isSome then ValidateTargets cwd c fs rest
    else
      match walkT fs (resolveSegs cwd t.path) with
      | none => ValidateTargets cwd c fs rest
      | some node =>
        if isLinkT node then ValidateTargets cwd c fs rest
        else if !isDirT node then ValidateTargets cwd c fs rest
        else t :: ValidateTargets cwd c fs rest

/-- DelError distinguishes the two failure modes of `secureRemoveAll`:
failure to open or read the directory, and failure of the final
`os.Remove` of the directory itself. -/
inductive DelError where
  | openFailed
  | removeFailed
  deriving DecidableEq

mutual
/-- srmNode is the body of `secureRemoveAll` once the directory is open:
process every entry (srmEntries), then remove the now hopefully empty
directory, whose failure is the only error the function reports.  The
entry list argument is the directory's content at `Readdir` time, which in
the sequential engine equals the live content because the loop only
mutates strictly below the processed entries.  The third result component
is the ghost trace: the argument of every `os.Remove` the run attempts. -/
def srmNode (cwd : GoStr) (c : Cleaner) (g : FsTree) (path : GoStr) :
    FsTree → FsTree × Option DelError × List GoStr
  | FsTree.dir es _ =>
    let p1 := srmEntries cwd c g path es
    let r := removeSegs p1.1 (resolveSegs cwd path)
    (r.1, (if r.2 then none else some DelError.removeFailed), p1.2 ++ [path])
  | _ => (g, some DelError.openFailed, [])
termination_by t => sizeOf t
/-- srmStep is the type dispatch on one already validated entry: a link or
a regular file is removed with `os.Remove` (the link itself, never its
destination), a directory is removed recursively; the removal trace is
returned alongside. -/
def srmStep (cwd : GoStr) (c : Cleaner) (g : FsTree) (entryPath : GoStr) :
    FsTree → FsTree × List GoStr
  | FsTree.link _ _ => ((removeSegs g (resolveSegs cwd entryPath)).1, [entryPath])
  | FsTree.dir es2 d2 =>
    let r := srmNode cwd c g entryPath (FsTree.dir es2 d2)
    (r.1, r.2.2)
  | FsTree.file _ _ => ((removeSegs g (resolveSegs cwd entryPath)).1, [entryPath])
termination_by t => 1 + sizeOf t
/-- srmEntries is the entry loop of `secureRemoveAll`: re-validate the
entry path against the live tree, skip the entry on any validation or
removal failure, and hand the entry to srmStep; every failure only skips
that entry. -/
def srmEntries (cwd : GoStr) (c : Cleaner) (g : FsTree) (path : GoStr) :
    List (GoStr × FsTree) → FsTree × List GoStr
  | [] => (g, [])
  | (nm, t) :: rest =>
    let step :=
      if (validatePathSecurity cwd c g (filepathJoin path nm)).isSome then (g, [])
      else srmStep cwd c g (filepathJoin path nm) t
    let rest2 := srmEntries cwd c step.1 path rest
    (rest2.1, step.2 ++ rest2.2)
termination_by es => sizeOf es
end

/-- secureRemoveAll models the source function of the same name: open the
directory (which fails on a missing path or a non-directory), then run
the symlink-safe recursive removal. -/
def secureRemoveAll (cwd : GoStr) (c : Cleaner) (g : FsTree) (path : GoStr) :
    FsTree × Option DelError × List GoStr :=
  match walkT g (resolveSegs cwd path) with
  | some t => srmNode cwd c g path t
  | none => (g, some DelError.openFailed, [])

/-- EngineError is the error surface of `secureDeleteDirectory`. -/
inductive EngineError where
  | security (e : SecurityError)
  | notExist
  | isSymlinkTarget
  | notDirectory
  | del (e : DelError)
  deriving DecidableEq

/-- secureDeleteDirectory models the source function: validate the target,
stat it without following links, refuse symlinks and non-directories, then
recursively remove it. -/
def secureDeleteDirectory (cwd : GoStr) (c : Cleaner) (fs : FsTree) (path : GoStr) :
    FsTree × Option EngineError × List GoStr :=
  match validatePathSecurity cwd c fs path with
  | some e => (fs, some (EngineError.security e), [])
  | none =>
    match walkT fs (resolveSegs cwd path) with
    | none => (fs, some EngineError.notExist, [])
    | some node =>
      if isLinkT node then (fs, some EngineError.isSymlinkTarget, [])
      else if !isDirT node then (fs, some EngineError.notDirectory, [])
      else
        let r := secureRemoveAll cwd c fs path
        (r.1, r.2.1.map EngineError.del, r.2.2)

/-- deleteDirectoryUI models `Model.deleteDirectory` of the interactive
UI: the selected target is handed to `os.RemoveAll` directly; the cleaner
stored on the model by `SetCleaner` is never consulted. -/
def deleteDirectoryUI (cwd : GoStr) (fs : FsTree) (target : CleanupTarget) : FsTree :=
  removeAllSegs fs (resolveSegs cwd target.path)

/-- blockRound is the per-file size estimate of `calculateDirSize`: an
empty file counts as one 4096-byte block, any other file is rounded up to
whole 4096-byte blocks. -/
def blockRound (n : Nat) : Nat :=
  if n = 0 then 4096 else ((n + 4096 - 1) / 4096) * 4096

mutual
/-- calculateDirSize models the scanner's `calculateDirSize`: walk the
subtree, skip every symbolic link (never descending into one), and sum
the block-rounded sizes of the regular files. -/
def calculateDirSize : FsTree → Nat
  | FsTree.file c _ => blockRound c.length
  | FsTree.link _ _ => 0
  | FsTree.dir es _ => calcEntries es
/-- calcEntries sums calculateDirSize over a directory's entries. -/
def calcEntries : List (GoStr × FsTree) → Nat
  | [] => 0
  | (_, t) :: rest => calculateDirSize t + calcEntries rest
end

/-- CommonCleanupDirs is the Target Catalog: the fixed basename-to-category
table of the source. -/
def CommonCleanupDirs : List (GoStr × GoStr) :=
  [(ascii "node_modules", ascii "Node.js/Bun.js dependencies"),
   (ascii ".next", ascii "Next.js build cache"),
   (ascii "dist", ascii "Distribution/build files"),
   (ascii ".nuxt", ascii "Nuxt.js build cache"),
   (ascii ".output", ascii "Nuxt 3 output"),
   (ascii ".cache", ascii "Cache directory"),
   (ascii "coverage", ascii "Test coverage reports"),
   (ascii ".nyc_output", ascii "NYC test coverage"),
   (ascii "tmp", ascii "Temporary files"),
   (ascii "temp", ascii "Temporary files"),
   (ascii ".parcel-cache", ascii "Parcel bundler cache"),
   (ascii ".turbo", ascii "Turborepo cache"),
   (ascii ".webpack", ascii "Webpack cache"),
   (ascii ".rollup.cache", ascii "Rollup cache"),
   (ascii ".vite", ascii "Vite cache"),
   (ascii ".swc", ascii "SWC cache"),
   (ascii "lib-cov", ascii "Library coverage"),
   (ascii ".DS_Store", ascii "macOS metadata"),
   (ascii "Thumbs.db", ascii "Windows metadata")]

/-- isCleanupTarget models the catalog membership test. -/
def isCleanupTarget (name : GoStr) : Bool :=
  CommonCleanupDirs.any (fun e => e.1 = name)

/-- getTargetType models the catalog category lookup with its Unknown
default. -/
def getTargetType (name : GoStr) : GoStr :=
  match CommonCleanupDirs.find? (fun e => e.1 == name) with
  | some e => e.2
  | none => ascii "Unknown"

/-- WorkItem is a queued discovery: the path, the basename and the subtree
of a directory handed from the tree-walking producer to a sizing worker. -/
structure WorkItem where
  path : GoStr
  name : GoStr
  tree : FsTree

mutual
/-- walkDirectory models the scanner's producer on the subtree rooted at
the given path and basename: symbolic links are skipped entirely, a
directory whose basename is in the catalog is emitted as one work item
without descending into it, and any other directory is descended into. -/
def walkDirectory (path name : GoStr) : FsTree → List WorkItem
  | FsTree.link _ _ => []
  | FsTree.file _ _ => []
  | FsTree.dir es d =>
    if isCleanupTarget name then [⟨path, name, FsTree.dir es d⟩]
    else walkChildren path es
/-- walkChildren applies walkDirectory to each child, in directory
order. -/
def walkChildren (path : GoStr) : List (GoStr × FsTree) → List WorkItem
  | [] => []
  | (nm, t) :: rest => walkDirectory (filepathJoin path nm) nm t ++ walkChildren path rest
end

/-- workerEmit models one worker step: a symlinked item is dropped, a
recognized item is sized and turned into a CleanupTarget. -/
def workerEmit (it : WorkItem) : Option CleanupTarget :=
  if isLinkT it.tree then none
  else if isCleanupTarget it.name then
    some ⟨it.path, it.name, (calculateDirSize it.tree : Int), getTargetType it.name, false⟩
  else none

/-- scanTargets is the sequential semantics of one full scan: the
producer's work items, in depth-first order, each turned into a target by
a worker; this is the no-drop execution of the bounded-channel pipeline. -/
def scanTargets (rootPath rootName : GoStr) (t : FsTree) : List CleanupTarget :=
  (walkDirectory rootPath rootName t).filterMap workerEmit

/-- vpcRev is the segment-level restatement of the vpcLoop ancestor walk:
the reversed segment list of the candidate is consumed one segment at a
time, each step examining the parent path obtained by dropping the last
segment.  It equals vpcLoop on the cleaned absolute paths the validator
produces, and is the convenient form for reasoning. -/
def vpcRev (c : Cleaner) (fs : FsTree) (orig : GoStr) : List GoStr → Option SecurityError
  | [] => none
  | _ :: r =>
    let parent := renderAbs r.reverse
    if parent = c.workingDir then none
    else
      match walkT fs r.reverse with
      | some node =>
        if isLinkT node then some ⟨orig, Reason.parentSymlink parent⟩
        else vpcRev c fs orig r
      | none => vpcRev c fs orig r

/-- StrictUnder states that a textual path resolves strictly below the
validator's working directory: the containment and root-inequality facts
that the prefix and equality checks of validatePathSecurity establish. -/
def StrictUnder (cwd : GoStr) (c : Cleaner) (p : GoStr) : Prop :=
  goHasPrefix (filepathAbs cwd p ++ [47]) (c.workingDir ++ [47]) = true ∧
    filepathAbs cwd p ≠ c.workingDir

/-- MutUnder describes a tree transition whose every mutation happened at
or below one of the given root segment lists: any path incomparable with
all roots resolves identically before and after, and any path that does
not extend a root keeps its stat signature (type and device). -/
def MutUnder (roots : List (List GoStr)) (g g2 : FsTree) : Prop :=
  (∀ q, (∀ r ∈ roots, ¬ (r <+: q) ∧ ¬ (q <+: r)) → walkT g2 q = walkT g q) ∧
  (∀ q, (∀ r ∈ roots, ¬ (r <+: q)) → sigT g2 q = sigT g q)

/-- SrmNodeSpec packages the verified behaviour of srmNode on one subtree:
mutations stay below the job's path, wellformedness of the snapshot is
preserved, and every removal the run attempts is on a path strictly below
the working directory whenever the job's own path is. -/
def SrmNodeSpec (t : FsTree) : Prop :=
  ∀ (cwd : GoStr) (c : Cleaner) (g : FsTree) (path : GoStr) (sp : List GoStr),
    goodSegs sp = true → path = renderAbs sp → goodTree t = true →
    MutUnder [sp] g (srmNode cwd c g path t).1 ∧
    (goodTree g = true → goodTree (srmNode cwd c g path t).1 = true) ∧
    (StrictUnder cwd c path → ∀ r ∈ (srmNode cwd c g path t).2.2, StrictUnder cwd c r)

/-- SrmEntriesSpec packages the verified behaviour of the entry loop:
mutations stay below per-entry roots, wellformedness is preserved, and
every attempted removal is on a validated path strictly below the working
directory. -/
def SrmEntriesSpec (es : List (GoStr × FsTree)) : Prop :=
  ∀ (cwd : GoStr) (c : Cleaner) (g : FsTree) (path : GoStr) (sp : List GoStr),
    goodSegs sp = true → path = renderAbs sp → goodEntries es = true →
    MutUnder (es.map (fun e => sp ++ [e.1])) g (srmEntries cwd c g path es).1 ∧
    (goodTree g = true → goodTree (srmEntries cwd c g path es).1 = true) ∧
    (∀ r ∈ (srmEntries cwd c g path es).2, StrictUnder cwd c r)

/-! The specification-side restatement of the validator for the ordered
check-list refinement claim: each numbered check of the specification is
its own function, the validator is their first DENY.  These definitions
follow the specification's words, to be compared with validatePathSecurity,
which follows the source. -/

/-- Check 1 of the specification, encoding integrity: the path must be
valid UTF-8 and contain no null byte. -/
def checkEncodingIntegrity (p : GoStr) : Option SecurityError :=
  if !utf8ValidString p then some ⟨p, Reason.invalidUTF8⟩
  else if goContains [0] p then some ⟨p, Reason.nullBytes⟩
  else none

/-- Check 2 of the specification, canonical-form match: the absolute form
must equal its own cleaned form. -/
def checkCanonicalForm (cwd p : GoStr) : Option SecurityError :=
  if filepathAbs cwd p ≠ filepathClean (filepathAbs cwd p) then
    some ⟨p, Reason.normalizationMismatch⟩
  else none

/-- Check 3 of the specification, containment: the working directory with
trailing separator must be a strict prefix of the canonical absolute path,
and equality with the working directory itself is rejected. -/
def checkContainment (cwd : GoStr) (c : Cleaner) (p : GoStr) : Option SecurityError :=
  if !goHasPrefix (filepathAbs cwd p ++ [47]) (c.workingDir ++ [47]) then
    some ⟨p, Reason.outsideWorkingDir⟩
  else if filepathAbs cwd p = c.workingDir then
    some ⟨p, Reason.cannotDeleteWorkingDir⟩
  else none

/-- Check 4 of the specification, the relative-traversal re-check: the
path relative to the working directory must not begin with, or contain, a
dot-dot segment. -/
def checkRelativeTraversal (cwd : GoStr) (c : Cleaner) (p : GoStr) : Option SecurityError :=
  if goHasPrefix (filepathRel c.workingDir (filepathAbs cwd p)) [46, 46]
      || goContains [47, 46, 46] (filepathRel c.workingDir (filepathAbs cwd p)) then
    some ⟨p, Reason.traversal⟩
  else none

/-- Check 5 of the specification, the device/volume boundary: when the
working directory's device is known, the candidate's device (from a
non-following stat) must match it exactly. -/
def checkDeviceBoundary (cwd : GoStr) (c : Cleaner) (fs : FsTree) (p : GoStr) :
    Option SecurityError :=
  if c.workingDirDev ≠ 0 &&
      (match walkT fs (segsOf (filepathAbs cwd p)) with
       | some node => devT node ≠ c.workingDirDev
       | none => false) then
    some ⟨p, Reason.crossesFilesystemBoundary⟩
  else none

/-- Check 6 of the specification, the ancestor symlink scan. -/
def checkAncestorSymlinks (cwd : GoStr) (c : Cleaner) (fs : FsTree) (p : GoStr) :
    Option SecurityError :=
  validatePathComponents c fs (filepathAbs cwd p)

/-- firstSome returns the first DENY of an ordered check list: the first
failing check wins and short-circuits the rest. -/
def firstSome : List (Option SecurityError) → Option SecurityError
  | [] => none
  | some e :: _ => some e
  | none :: rest => firstSome rest

/-- validateSpecOrdered is the validator as the specification words it:
the six checks in their numbered order, first failing check wins. -/
def validateSpecOrdered (cwd : GoStr) (c : Cleaner) (fs : FsTree) (p : GoStr) :
    Option SecurityError :=
  firstSome
    [checkEncodingIntegrity p,
     checkCanonicalForm cwd p,
     checkContainment cwd c p,
     checkRelativeTraversal cwd c p,
     checkDeviceBoundary cwd c fs p,
     checkAncestorSymlinks cwd c fs p]

/-! Concrete filesystem snapshots used by the instance parts of the
claims: small trees over single-byte names (97 = a, 100 = d, 101 = e,
102 = f, 108 = l, 110 = n, 111 = o, 115 = s, 116 = t, 119 = w, 120 = x)
below a working directory [47, 119] = "/w". -/

/-- fsWdOnly is a root holding only the working directory /w with one
child directory /w/t, all on device 1. -/
def fsWdOnly : FsTree :=
  FsTree.dir [([119], FsTree.dir [([116], FsTree.dir [] 1)] 1)] 1

/-- fsDevSplit is a root whose directory /w/t sits on device 2 while /w
is on device 1: deleting /w/t crosses a filesystem boundary. -/
def fsDevSplit : FsTree :=
  FsTree.dir [([119], FsTree.dir [([116], FsTree.dir [] 2)] 1)] 1

/-- fsLinkUp is a root whose target /w/t holds a regular file a and a
symlink s whose destination /w is an ancestor of the target. -/
def fsLinkUp : FsTree :=
  FsTree.dir [([119], FsTree.dir [([116],
    FsTree.dir [([97], FsTree.file [5] 1), ([115], FsTree.link [47, 119] 1)] 1)] 1)] 1

/-- fsLinkSide is a root whose target /w/t holds a regular file a and a
symlink s to the sibling directory /w/e, which holds the file f. -/
def fsLinkSide : FsTree :=
  FsTree.dir [([119], FsTree.dir
    [([116], FsTree.dir [([97], FsTree.file [5] 1),
                         ([115], FsTree.link [47, 119, 47, 101] 1)] 1),
     ([101], FsTree.dir [([102], FsTree.file [7] 1)] 1)] 1)] 1

/-- fsLinkAncestor is a root where /w/s is a symlink, so any candidate
below /w/s has a symlinked ancestor strictly between it and /w. -/
def fsLinkAncestor : FsTree :=
  FsTree.dir [([119], FsTree.dir [([115], FsTree.link [47, 120] 1)] 1)] 1

/-- fsFiveKinds is a root for the ValidateTargets instance: below /w a
valid directory d, a symlink l to d, and a regular file f; outside the
working directory a directory /o. -/
def fsFiveKinds : FsTree :=
  FsTree.dir [([119], FsTree.dir
    [([100], FsTree.dir [] 1),
     ([108], FsTree.link [47, 119, 47, 100] 1),
     ([102], FsTree.file [1] 1)] 1),
   ([111], FsTree.dir [] 1)] 1

/-- fsProject is the scanner instance: /p/project holds node_modules
(itself holding a catalog-named dist directory that pruning must not
report), .next, and src (whose basename is not in the catalog). -/
def fsProject : FsTree :=
  FsTree.dir [(ascii "project", FsTree.dir
    [(ascii "node_modules", FsTree.dir [(ascii "dist", FsTree.dir [] 1)] 1),
     (ascii ".next", FsTree.dir [] 1),
     (ascii "src", FsTree.dir [(ascii "a", FsTree.file [1, 2, 3] 1)] 1)] 1)] 1

/-- plainSeg are the segments the Clean stack pass leaves untouched. -/
def plainSeg (s : GoStr) : Prop := s ≠ [] ∧ s ≠ [46] ∧ s ≠ [46, 46]

/-- flatSep is an alternative rendering: a separator before every
segment.  It coincides with renderAbs on non-empty segment lists and is
the convenient form for prefix reasoning. -/
def flatSep : List GoStr → GoStr
  | [] => []
  | s :: rest => 47 :: (s ++ flatSep rest)

/-! Path layer lemmas: the algebra of splitting, cleaning and rendering. -/

theorem not_mem_of_mem_splitOn {x : Nat} {xs l : List Nat}
    (h : l ∈ xs.splitOn x) : x ∉ l := by
  induction xs generalizing l with
  | nil =>
    simp only [List.splitOn_nil, List.mem_singleton] at h
    subst h; simp
  | cons a t ih =>
    rw [List.splitOn, List.splitOnP_cons] at h
    by_cases hax : a = x
    · simp only [hax, beq_self_eq_true, if_true, List.mem_cons] at h
      rcases h with h | h
      · subst h; simp
      · exact ih h
    · have hbeq : (a == x) = false := beq_false_of_ne hax
      simp only [hbeq, Bool.false_eq_true, if_false] at h
      cases ht : t.splitOnP (· == x) with
      | nil => exact absurd ht (List.splitOnP_ne_nil _ t)
      | cons hd tl =>
        rw [ht, List.modifyHead] at h
        rcases List.mem_cons.mp h with h | h
        · subst h
          intro hx
          rcases List.mem_cons.mp hx with hx | hx
          · exact hax hx.symm
          · have hmem : hd ∈ t.splitOn x := by
              rw [List.splitOn, ht]; exact List.mem_cons_self hd tl
            exact ih hmem hx
        · have hmem : l ∈ t.splitOn x := by
            rw [List.splitOn, ht]; exact List.mem_cons_of_mem hd h
          exact ih hmem

theorem joinSegs_nil : joinSegs [] = [] := rfl

theorem joinSegs_singleton (s : GoStr) : joinSegs [s] = s := by
  simp [joinSegs, List.intercalate]

theorem joinSegs_cons_cons (a b : GoStr) (t : List GoStr) :
    joinSegs (a :: b :: t) = a ++ 47 :: joinSegs (b :: t) := by
  simp [joinSegs, List.intercalate, List.intersperse_cons_cons]

theorem renderAbs_eq_flatSep (s : List GoStr) (h : s ≠ []) : renderAbs s = flatSep s := by
  induction s with
  | nil => exact absurd rfl h
  | cons a t ih =>
    cases t with
    | nil => simp [renderAbs, flatSep, joinSegs_singleton]
    | cons b t2 =>
      have ht : (b :: t2 : List GoStr) ≠ [] := by simp
      have := ih ht
      simp only [renderAbs, if_neg (by simp : (b :: t2 : List GoStr) ≠ [])] at this
      simp [renderAbs, joinSegs_cons_cons, flatSep]
      simp [flatSep] at this
      exact this

theorem flatSep_append (u v : List GoStr) :
    flatSep (u ++ v) = flatSep u ++ flatSep v := by
  induction u with
  | nil => simp [flatSep]
  | cons a t ih => simp [flatSep, ih]

theorem flatSep_sep_cons (u : List GoStr) : ∃ w, flatSep u ++ [47] = 47 :: w := by
  cases u with
  | nil => exact ⟨[], rfl⟩
  | cons a t => exact ⟨a ++ flatSep t ++ [47], by simp [flatSep]⟩

theorem sep_prefix_helper (s : GoStr) : ∀ (t u v : GoStr), 47 ∉ s → 47 ∉ t →
    ((s ++ 47 :: u) <+: (t ++ 47 :: v) ↔ s = t ∧ u <+: v) := by
  induction s with
  | nil =>
    intro t u v _ ht
    cases t with
    | nil => simp [List.cons_prefix_cons]
    | cons b t2 =>
      simp only [List.nil_append]
      constructor
      · intro h
        have := (List.cons_prefix_cons.mp h).1
        exact absurd this.symm (by simp at ht; intro hb; exact ht.1 hb.symm)
      · rintro ⟨h, -⟩; exact absurd h.symm (by simp)
  | cons a s2 ih =>
    intro t u v hs ht
    cases t with
    | nil =>
      simp only [List.nil_append, List.cons_append]
      constructor
      · intro h
        have := (List.cons_prefix_cons.mp h).1
        exact absurd this (by simp at hs; exact fun hq => hs.1 hq.symm)
      · rintro ⟨h, -⟩; exact absurd h (by simp)
    | cons b t2 =>
      simp only [List.cons_append, List.cons_prefix_cons]
      have hs2 : 47 ∉ s2 := fun hq => hs (List.mem_cons_of_mem a hq)
      have ht2 : 47 ∉ t2 := fun hq => ht (List.mem_cons_of_mem b hq)
      rw [ih t2 u v hs2 ht2]
      constructor
      · rintro ⟨h1, h2, h3⟩; exact ⟨by rw [h1, h2], h3⟩
      · rintro ⟨h1, h2⟩
        have := List.cons.injEq a s2 b t2 ▸ h1
        exact ⟨by injection h1, by injection h1, h2⟩

theorem flatSep_prefix_iff (u : List GoStr) : ∀ (v : List GoStr),
    (∀ s ∈ u, 47 ∉ s) → (∀ s ∈ v, 47 ∉ s) →
    ((flatSep u ++ [47]) <+: (flatSep v ++ [47]) ↔ u <+: v) := by
  induction u with
  | nil =>
    intro v _ _
    constructor
    · intro _; exact List.nil_prefix
    · intro _
      obtain ⟨w, hw⟩ := flatSep_sep_cons v
      rw [hw]
      simp [flatSep, List.cons_prefix_cons]
  | cons s u2 ih =>
    intro v hu hv
    cases v with
    | nil =>
      simp only [flatSep]
      constructor
      · intro h
        have hl := h.length_le
        simp at hl
      · intro h
        have := h.length_le
        simp at this
    | cons t v2 =>
      obtain ⟨wu, hwu⟩ := flatSep_sep_cons u2
      obtain ⟨wv, hwv⟩ := flatSep_sep_cons v2
      have hs : 47 ∉ s := hu s (List.mem_cons_self s u2)
      have ht : 47 ∉ t := hv t (List.mem_cons_self t v2)
      have hu2 : ∀ x ∈ u2, 47 ∉ x := fun x hx => hu x (List.mem_cons_of_mem s hx)
      have hv2 : ∀ x ∈ v2, 47 ∉ x := fun x hx => hv x (List.mem_cons_of_mem t hx)
      have lhs_eq : flatSep (s :: u2) ++ [47] = 47 :: (s ++ 47 :: wu) := by
        show 47 :: (s ++ flatSep u2) ++ [47] = 47 :: (s ++ 47 :: wu)
        rw [← hwu]
        simp
      have rhs_eq : flatSep (t :: v2) ++ [47] = 47 :: (t ++ 47 :: wv) := by
        show 47 :: (t ++ flatSep v2) ++ [47] = 47 :: (t ++ 47 :: wv)
        rw [← hwv]
        simp
      rw [lhs_eq, rhs_eq, List.cons_prefix_cons]
      rw [sep_prefix_helper s t wu wv hs ht]
      constructor
      · rintro ⟨-, h2, h3⟩
        have : (flatSep u2 ++ [47]) <+: (flatSep v2 ++ [47]) := by
          rw [hwu, hwv]
          exact List.cons_prefix_cons.mpr ⟨rfl, h3⟩
        rw [List.cons_prefix_cons]
        exact ⟨h2, (ih v2 hu2 hv2).mp this⟩
      · intro h
        obtain ⟨h1, h2⟩ := List.cons_prefix_cons.mp h
        have : (flatSep u2 ++ [47]) <+: (flatSep v2 ++ [47]) := (ih v2 hu2 hv2).mpr h2
        rw [hwu, hwv] at this
        exact ⟨rfl, h1, (List.cons_prefix_cons.mp this).2⟩

theorem plainSeg_not_dd : ¬ plainSeg [46, 46] := by
  intro h; exact h.2.2 rfl

theorem cleanRev_shape (rooted : Bool) :
    ∀ (segs stack front : List GoStr) (k : Nat),
      stack = front ++ List.replicate k [46, 46] →
      (∀ s ∈ front, plainSeg s) →
      (rooted = true → k = 0) →
      ∃ front2 k2, cleanRev rooted stack segs = front2 ++ List.replicate k2 [46, 46] ∧
        (∀ s ∈ front2, plainSeg s) ∧ (rooted = true → k2 = 0) := by
  intro segs
  induction segs with
  | nil => intro stack front k hs hf hk; exact ⟨front, k, by simpa [cleanRev] using hs, hf, hk⟩
  | cons seg rest ih =>
    intro stack front k hs hf hk
    by_cases h1 : seg = [] ∨ seg = [46]
    · rw [show cleanRev rooted stack (seg :: rest) = cleanRev rooted stack rest by
        simp [cleanRev]; intro hq; cases h1 with
        | inl h => exact absurd h hq
        | inr h => simp [h]]
      exact ih stack front k hs hf hk
    · push_neg at h1
      by_cases h2 : seg = [46, 46]
      · subst h2
        cases hfront : front with
        | nil =>
          subst hfront
          simp only [List.nil_append] at hs
          cases hkk : k with
          | zero =>
            subst hkk
            simp only [List.replicate] at hs
            subst hs
            by_cases hroot : rooted = true
            · rw [show cleanRev rooted [] ([46, 46] :: rest) = cleanRev rooted [] rest by
                simp [cleanRev, h1.1, h1.2, hroot]]
              exact ih [] [] 0 (by simp) (by simp) (fun _ => rfl)
            · have hroot2 : rooted = false := by simpa using hroot
              rw [show cleanRev rooted [] ([46, 46] :: rest) = cleanRev rooted [[46, 46]] rest by
                simp [cleanRev, h1.1, h1.2, hroot2]]
              exact ih [[46, 46]] [] 1 (by simp) (by simp) (by simp [hroot2])
          | succ k2 =>
            subst hkk
            have hroot2 : rooted = false := by
              cases hr : rooted
              · rfl
              · exact absurd (hk hr) (Nat.succ_ne_zero k2)
            rw [hs]
            rw [show cleanRev rooted (List.replicate (k2 + 1) [46, 46]) ([46, 46] :: rest)
                = cleanRev rooted ([46, 46] :: [46, 46] :: List.replicate k2 [46, 46]) rest by
              simp [cleanRev, h1.1, h1.2, List.replicate]]
            exact ih _ [] (k2 + 2) (by simp [List.replicate]) (by simp) (by simp [hroot2])
        | cons f0 front2 =>
          subst hfront
          have hplain0 : plainSeg f0 := hf f0 (List.mem_cons_self f0 front2)
          have hne : f0 ≠ [46, 46] := hplain0.2.2
          rw [hs]
          rw [show cleanRev rooted ((f0 :: front2) ++ List.replicate k [46, 46]) ([46, 46] :: rest)
              = cleanRev rooted (front2 ++ List.replicate k [46, 46]) rest by
            simp [cleanRev, h1.1, h1.2, hne]]
          exact ih _ front2 k rfl (fun s hsm => hf s (List.mem_cons_of_mem f0 hsm)) hk
      · have hplain : plainSeg seg := ⟨h1.1, h1.2, h2⟩
        rw [hs]
        rw [show cleanRev rooted (front ++ List.replicate k [46, 46]) (seg :: rest)
            = cleanRev rooted (seg :: (front ++ List.replicate k [46, 46])) rest by
          simp [cleanRev, h1.1, h1.2, h2]]
        exact ih _ (seg :: front) k (by simp) (by
          intro s hsm
          rcases List.mem_cons.mp hsm with h | h
          · subst h; exact hplain
          · exact hf s h) hk

theorem cleanSegs_shape (rooted : Bool) (segs : List GoStr) :
    ∃ plains k, cleanSegs rooted segs = List.replicate k [46, 46] ++ plains ∧
      (∀ s ∈ plains, plainSeg s) ∧ (rooted = true → k = 0) := by
  obtain ⟨front, k, heq, hf, hk⟩ := cleanRev_shape rooted segs [] [] 0 rfl (by simp) (fun _ => rfl)
  refine ⟨front.reverse, k, ?_, ?_, hk⟩
  · rw [cleanSegs, heq, List.reverse_append, List.reverse_replicate]
  · intro s hsm; exact hf s (List.mem_reverse.mp hsm)

theorem mem_cleanRev (rooted : Bool) :
    ∀ (segs stack : List GoStr) (s : GoStr), s ∈ cleanRev rooted stack segs →
      s ∈ stack ∨ s ∈ segs ∨ s = [46, 46] := by
  intro segs
  induction segs with
  | nil => intro stack s h; left; simpa [cleanRev] using h
  | cons seg rest ih =>
    intro stack s h
    by_cases h1 : seg = [] ∨ seg = [46]
    · rw [show cleanRev rooted stack (seg :: rest) = cleanRev rooted stack rest by
        simp [cleanRev]; intro hq; cases h1 with
        | inl hx => exact absurd hx hq
        | inr hx => simp [hx]] at h
      rcases ih stack s h with h | h | h
      · exact Or.inl h
      · exact Or.inr (Or.inl (List.mem_cons_of_mem seg h))
      · exact Or.inr (Or.inr h)
    · push_neg at h1
      by_cases h2 : seg = [46, 46]
      · subst h2
        cases stack with
        | nil =>
          by_cases hroot : rooted = true
          · rw [show cleanRev rooted [] ([46, 46] :: rest) = cleanRev rooted [] rest by
              simp [cleanRev, h1.1, h1.2, hroot]] at h
            rcases ih [] s h with h | h | h
            · exact Or.inl h
            · exact Or.inr (Or.inl (List.mem_cons_of_mem _ h))
            · exact Or.inr (Or.inr h)
          · have hroot2 : rooted = false := by simpa using hroot
            rw [show cleanRev rooted [] ([46, 46] :: rest) = cleanRev rooted [[46, 46]] rest by
              simp [cleanRev, h1.1, h1.2, hroot2]] at h
            rcases ih [[46, 46]] s h with h | h | h
            · exact Or.inr (Or.inr (by simpa using h))
            · exact Or.inr (Or.inl (List.mem_cons_of_mem _ h))
            · exact Or.inr (Or.inr h)
        | cons top stk =>
          by_cases htop : top = [46, 46]
          · rw [show cleanRev rooted (top :: stk) ([46, 46] :: rest)
                = cleanRev rooted ([46, 46] :: top :: stk) rest by
              simp [cleanRev, h1.1, h1.2, htop]] at h
            rcases ih _ s h with h | h | h
            · rcases List.mem_cons.mp h with h | h
              · exact Or.inr (Or.inr h)
              · exact Or.inl h
            · exact Or.inr (Or.inl (List.mem_cons_of_mem _ h))
            · exact Or.inr (Or.inr h)
          · rw [show cleanRev rooted (top :: stk) ([46, 46] :: rest)
                = cleanRev rooted stk rest by
              simp [cleanRev, h1.1, h1.2, htop]] at h
            rcases ih stk s h with h | h | h
            · exact Or.inl (List.mem_cons_of_mem top h)
            · exact Or.inr (Or.inl (List.mem_cons_of_mem _ h))
            · exact Or.inr (Or.inr h)
      · rw [show cleanRev rooted stack (seg :: rest) = cleanRev rooted (seg :: stack) rest by
          simp [cleanRev, h1.1, h1.2, h2]] at h
        rcases ih (seg :: stack) s h with h | h | h
        · rcases List.mem_cons.mp h with h | h
          · exact Or.inr (Or.inl (by simp [h]))
          · exact Or.inl h
        · exact Or.inr (Or.inl (List.mem_cons_of_mem seg h))
        · exact Or.inr (Or.inr h)

theorem mem_cleanSegs (rooted : Bool) (segs : List GoStr) (s : GoStr)
    (h : s ∈ cleanSegs rooted segs) : s ∈ segs ∨ s = [46, 46] := by
  rcases mem_cleanRev rooted segs [] s (List.mem_reverse.mp (by simpa [cleanSegs] using h))
    with h | h | h
  · simp at h
  · exact Or.inl h
  · exact Or.inr h

theorem cleanRev_plain (rooted : Bool) :
    ∀ (plains stack : List GoStr), (∀ s ∈ plains, plainSeg s) →
      cleanRev rooted stack plains = plains.reverse ++ stack := by
  intro plains
  induction plains with
  | nil => intro stack _; simp [cleanRev]
  | cons s rest ih =>
    intro stack hp
    have hs : plainSeg s := hp s (List.mem_cons_self s rest)
    rw [show cleanRev rooted stack (s :: rest) = cleanRev rooted (s :: stack) rest by
      simp [cleanRev, hs.1, hs.2.1, hs.2.2]]
    rw [ih (s :: stack) (fun x hx => hp x (List.mem_cons_of_mem s hx))]
    simp

theorem cleanRev_dd (plains : List GoStr) (hp : ∀ s ∈ plains, plainSeg s) :
    ∀ (k j : Nat), cleanRev false (List.replicate j [46, 46])
      (List.replicate k [46, 46] ++ plains) = plains.reverse ++ List.replicate (k + j) [46, 46] := by
  intro k
  induction k with
  | zero => intro j; simpa using cleanRev_plain false plains (List.replicate j [46, 46]) hp
  | succ k2 ih =>
    intro j
    cases j with
    | zero =>
      rw [show (List.replicate (k2 + 1) [46, 46] ++ plains : List GoStr)
          = [46, 46] :: (List.replicate k2 [46, 46] ++ plains) by simp [List.replicate]]
      rw [show cleanRev false (List.replicate 0 [46, 46])
            ([46, 46] :: (List.replicate k2 [46, 46] ++ plains))
          = cleanRev false (List.replicate 1 [46, 46]) (List.replicate k2 [46, 46] ++ plains) by
        simp [cleanRev, List.replicate]]
      rw [ih 1]
    | succ j2 =>
      rw [show (List.replicate (k2 + 1) [46, 46] ++ plains : List GoStr)
          = [46, 46] :: (List.replicate k2 [46, 46] ++ plains) by simp [List.replicate]]
      rw [show cleanRev false (List.replicate (j2 + 1) [46, 46])
            ([46, 46] :: (List.replicate k2 [46, 46] ++ plains))
          = cleanRev false (List.replicate (j2 + 2) [46, 46])
            (List.replicate k2 [46, 46] ++ plains) by
        simp [cleanRev, List.replicate]]
      rw [ih (j2 + 2)]
      have harith : k2 + (j2 + 2) = k2 + 1 + (j2 + 1) := by omega
      rw [harith]

theorem cleanSegs_fixed (rooted : Bool) (k : Nat) (plains : List GoStr)
    (hr : rooted = true → k = 0) (hp : ∀ s ∈ plains, plainSeg s) :
    cleanSegs rooted (List.replicate k [46, 46] ++ plains)
      = List.replicate k [46, 46] ++ plains := by
  cases hroot : rooted
  · rw [cleanSegs]
    have h0 := cleanRev_dd plains hp k 0
    simp only [List.replicate_zero, Nat.add_zero] at h0
    rw [h0]
    simp [List.reverse_append, List.reverse_replicate]
  · have hk0 : k = 0 := hr hroot
    subst hk0
    rw [cleanSegs]
    simp only [List.replicate, List.nil_append]
    rw [cleanRev_plain true plains [] hp]
    simp

theorem splitSlash_joinSegs (segs : List GoStr) (h47 : ∀ s ∈ segs, 47 ∉ s)
    (hne : segs ≠ []) : splitSlash (joinSegs segs) = segs := by
  rw [splitSlash, joinSegs]
  exact List.splitOn_intercalate segs 47 h47 hne

theorem splitSlash_cons47 (p : GoStr) : splitSlash (47 :: p) = [] :: splitSlash p := by
  simp [splitSlash, List.splitOn, List.splitOnP_cons]

theorem splitSlash_nil : splitSlash [] = [[]] := rfl

theorem splitSlash_renderAbs (segs : List GoStr) (h47 : ∀ s ∈ segs, 47 ∉ s) :
    splitSlash (renderAbs segs) = [] :: segs ++ [[]] ∨
      (segs ≠ [] ∧ splitSlash (renderAbs segs) = [] :: segs) := by
  cases hs : segs with
  | nil => left; simp [renderAbs, splitSlash_cons47, splitSlash_nil]
  | cons a t =>
    right
    refine ⟨by simp, ?_⟩
    rw [renderAbs, if_neg (by simp), splitSlash_cons47]
    rw [splitSlash_joinSegs (a :: t) (hs ▸ h47) (by simp)]

theorem filter_ne_nil_of_all_ne (l : List GoStr) (h : ∀ s ∈ l, s ≠ []) :
    l.filter (fun s => s ≠ []) = l := by
  rw [List.filter_eq_self]
  intro a ha
  simpa using h a ha

theorem segsOf_renderAbs (segs : List GoStr) (h47 : ∀ s ∈ segs, 47 ∉ s)
    (hne : ∀ s ∈ segs, s ≠ []) : segsOf (renderAbs segs) = segs := by
  rcases splitSlash_renderAbs segs h47 with h | ⟨hs, h⟩
  · have hsegs : segs = [] := by
      cases hq : segs with
      | nil => rfl
      | cons a t =>
        rw [hq] at h
        have : renderAbs (a :: t) = 47 :: joinSegs (a :: t) := by
          rw [renderAbs, if_neg (by simp)]
        rw [this, splitSlash_cons47] at h
        have := splitSlash_joinSegs (a :: t) (hq ▸ h47) (by simp)
        rw [this] at h
        have hlen := congrArg List.length h
        simp at hlen
    subst hsegs
    simp [segsOf, renderAbs, splitSlash_cons47, splitSlash_nil, List.filter]
  · rw [segsOf, h]
    simp only [List.filter]
    rw [show (decide ¬([] : GoStr) = []) = false by simp]
    exact filter_ne_nil_of_all_ne segs hne

theorem goodSeg_spec (s : GoStr) (h : goodSeg s = true) :
    plainSeg s ∧ 47 ∉ s := by
  simp only [goodSeg, Bool.and_eq_true, decide_eq_true_eq, Bool.not_eq_true'] at h
  exact ⟨⟨h.1.1.1, h.1.1.2, h.1.2⟩, by simpa using h.2⟩

theorem goodSeg_of_plain (s : GoStr) (hp : plainSeg s) (h47 : 47 ∉ s) :
    goodSeg s = true := by
  simp only [goodSeg, Bool.and_eq_true, decide_eq_true_eq, Bool.not_eq_true']
  exact ⟨⟨⟨hp.1, hp.2.1⟩, hp.2.2⟩, by simpa using h47⟩

theorem goodSegs_spec (l : List GoStr) (h : goodSegs l = true) :
    ∀ s ∈ l, plainSeg s ∧ 47 ∉ s := by
  intro s hs
  rw [goodSegs, List.all_eq_true] at h
  exact goodSeg_spec s (h s hs)

theorem goodSegs_of_parts (l : List GoStr) (h : ∀ s ∈ l, plainSeg s ∧ 47 ∉ s) :
    goodSegs l = true := by
  rw [goodSegs, List.all_eq_true]
  intro s hs
  exact goodSeg_of_plain s (h s hs).1 (h s hs).2

theorem segsOf_renderAbs_good (segs : List GoStr) (hg : goodSegs segs = true) :
    segsOf (renderAbs segs) = segs :=
  segsOf_renderAbs segs (fun s hs => (goodSegs_spec segs hg s hs).2)
    (fun s hs => (goodSegs_spec segs hg s hs).1.1)

theorem renderAbs_inj (u v : List GoStr) (hu : goodSegs u = true) (hv : goodSegs v = true)
    (h : renderAbs u = renderAbs v) : u = v := by
  have := congrArg segsOf h
  rwa [segsOf_renderAbs_good u hu, segsOf_renderAbs_good v hv] at this

theorem isRooted_renderAbs (segs : List GoStr) : isRooted (renderAbs segs) = true := by
  cases segs with
  | nil => rfl
  | cons a t => rw [renderAbs, if_neg (by simp)]; rfl

theorem filepathClean_rooted_eq (p : GoStr) (hr : isRooted p = true) :
    filepathClean p = renderAbs (cleanSegs true (splitSlash p)) := by
  rw [filepathClean, renderAbs, hr]
  simp

theorem goodSegs_cleanSegs_rooted (p : GoStr) :
    goodSegs (cleanSegs true (splitSlash p)) = true := by
  obtain ⟨plains, k, heq, hplain, hk⟩ := cleanSegs_shape true (splitSlash p)
  rw [hk rfl] at heq
  simp only [List.replicate_zero, List.nil_append] at heq
  apply goodSegs_of_parts
  intro s hs
  rw [heq] at hs
  refine ⟨hplain s hs, ?_⟩
  rcases mem_cleanSegs true (splitSlash p) s (heq ▸ hs) with h | h
  · exact not_mem_of_mem_splitOn h
  · exact absurd (h ▸ hplain s hs) plainSeg_not_dd

theorem isGoodAbs_filepathClean (p : GoStr) (hr : isRooted p = true) :
    isGoodAbs (filepathClean p) = true := by
  rw [filepathClean_rooted_eq p hr]
  have hg := goodSegs_cleanSegs_rooted p
  rw [isGoodAbs, segsOf_renderAbs_good _ hg, hg]
  simp

theorem filepathClean_renderAbs (s : List GoStr) (hg : goodSegs s = true) :
    filepathClean (renderAbs s) = renderAbs s := by
  rw [filepathClean_rooted_eq _ (isRooted_renderAbs s)]
  rcases splitSlash_renderAbs s (fun x hx => (goodSegs_spec s hg x hx).2) with h | ⟨hs, h⟩
  · have hsnil : s = [] := by
      cases hq : s with
      | nil => rfl
      | cons a t =>
        rw [hq, renderAbs, if_neg (by simp), splitSlash_cons47,
          splitSlash_joinSegs (a :: t) (fun x hx => (goodSegs_spec s hg x (hq ▸ hx)).2)
            (by simp)] at h
        have hlen := congrArg List.length h
        simp at hlen
    subst hsnil
    rw [show splitSlash (renderAbs []) = [[], []] by
      simp [renderAbs, splitSlash_cons47, splitSlash_nil]]
    rw [show cleanSegs true [[], []] = [] by rfl]
  · rw [h]
    have hstep : cleanSegs true ([] :: s) = cleanSegs true s := by
      simp [cleanSegs, cleanRev]
    rw [hstep]
    have := cleanSegs_fixed true 0 s (fun _ => rfl)
      (fun x hx => (goodSegs_spec s hg x hx).1)
    simp only [List.replicate_zero, List.nil_append] at this
    rw [this]

theorem isRooted_append_head (b : Nat) (s x : GoStr) (hb : b ≠ 47) :
    isRooted ((b :: s) ++ x) = false := by
  simp [isRooted, hb]

theorem isRooted_joinSegs_clean (segs : List GoStr) (hne : segs ≠ [])
    (hm : ∀ s ∈ segs, 47 ∉ s) (hshape : ∀ s ∈ segs, plainSeg s ∨ s = [46, 46]) :
    isRooted (joinSegs segs) = false := by
  cases hs : segs with
  | nil => exact absurd hs hne
  | cons a t =>
    have ha : a ∈ segs := hs ▸ List.mem_cons_self a t
    have hane : a ≠ [] := by
      rcases hshape a ha with h | h
      · exact h.1
      · rw [h]; simp
    cases haa : a with
    | nil => exact absurd haa hane
    | cons b s2 =>
      have hb : b ≠ 47 := by
        intro hbq
        exact hm a ha (by rw [haa, hbq]; exact List.mem_cons_self 47 s2)
      cases t with
      | nil =>
        rw [joinSegs_singleton]
        simp [isRooted, hb]
      | cons c t2 =>
        rw [joinSegs_cons_cons]
        exact isRooted_append_head b s2 _ hb

theorem filepathClean_idem (p : GoStr) : filepathClean (filepathClean p) = filepathClean p := by
  by_cases hr : isRooted p = true
  · rw [filepathClean_rooted_eq p hr]
    exact filepathClean_renderAbs _ (goodSegs_cleanSegs_rooted p)
  · have hr2 : isRooted p = false := by simpa using hr
    obtain ⟨plains, k, heq, hplain, -⟩ := cleanSegs_shape false (splitSlash p)
    have hcp : filepathClean p =
        (if cleanSegs false (splitSlash p) = [] then [46]
         else joinSegs (cleanSegs false (splitSlash p))) := by
      rw [filepathClean, hr2]
      simp
    by_cases hnil : cleanSegs false (splitSlash p) = []
    · rw [hcp, if_pos hnil]
      rfl
    · rw [hcp, if_neg hnil]
      have hmem47 : ∀ s ∈ cleanSegs false (splitSlash p), 47 ∉ s := by
        intro s hsm
        rcases mem_cleanSegs false (splitSlash p) s hsm with h | h
        · exact not_mem_of_mem_splitOn h
        · rw [h]; simp
      have hshape : ∀ s ∈ cleanSegs false (splitSlash p), plainSeg s ∨ s = [46, 46] := by
        intro s hsm
        rw [heq] at hsm
        rcases List.mem_append.mp hsm with h | h
        · right; exact List.eq_of_mem_replicate h
        · left; exact hplain s h
      have hur : isRooted (joinSegs (cleanSegs false (splitSlash p))) = false :=
        isRooted_joinSegs_clean _ hnil hmem47 hshape
      have hsplit : splitSlash (joinSegs (cleanSegs false (splitSlash p)))
          = cleanSegs false (splitSlash p) :=
        splitSlash_joinSegs _ hmem47 hnil
      have hfix : cleanSegs false (cleanSegs false (splitSlash p))
          = cleanSegs false (splitSlash p) := by
        rw [heq]
        exact cleanSegs_fixed false k plains (by simp) hplain
      rw [filepathClean, hur]
      simp only [Bool.false_eq_true, if_false]
      rw [hsplit, hfix, if_neg hnil]

theorem filepathClean_filepathAbs (cwd p : GoStr) :
    filepathClean (filepathAbs cwd p) = filepathAbs cwd p := by
  rw [filepathAbs]
  split
  · exact filepathClean_idem p
  · exact filepathClean_idem (cwd ++ [47] ++ p)

theorem isGoodAbs_filepathAbs (cwd p : GoStr) (hc : isRooted cwd = true) :
    isGoodAbs (filepathAbs cwd p) = true := by
  rw [filepathAbs]
  by_cases hp : isRooted p = true
  · rw [if_pos hp]
    exact isGoodAbs_filepathClean p hp
  · rw [if_neg hp]
    apply isGoodAbs_filepathClean
    cases cwd with
    | nil => simp [isRooted] at hc
    | cons b t =>
      have hb : b = 47 := by simpa [isRooted] using hc
      subst hb
      rfl

theorem isGoodAbs_parts (p : GoStr) (h : isGoodAbs p = true) :
    goodSegs (segsOf p) = true ∧ p = renderAbs (segsOf p) := by
  simp only [isGoodAbs, Bool.and_eq_true, decide_eq_true_eq] at h
  exact h

theorem goodSegs_append (a b : List GoStr) :
    goodSegs (a ++ b) = (goodSegs a && goodSegs b) := by
  simp [goodSegs, List.all_append]

theorem goodSegs_reverse (a : List GoStr) : goodSegs a.reverse = goodSegs a := by
  simp only [goodSegs]
  rw [Bool.eq_iff_iff, List.all_eq_true, List.all_eq_true]
  constructor
  · intro h s hs; exact h s (List.mem_reverse.mpr hs)
  · intro h s hs; exact h s (List.mem_reverse.mp hs)

theorem goodSegs_sub (a b : List GoStr) (hs : ∀ s ∈ a, s ∈ b)
    (h : goodSegs b = true) : goodSegs a = true := by
  rw [goodSegs, List.all_eq_true] at h ⊢
  intro s hsm
  exact h s (hs s hsm)

theorem flatSep_length_ge (s : List GoStr) : s.length ≤ (flatSep s).length := by
  induction s with
  | nil => simp [flatSep]
  | cons a t ih => simp [flatSep]; omega

theorem length_renderAbs_ge (s : List GoStr) : s.length ≤ (renderAbs s).length := by
  cases hs : s with
  | nil => simp [renderAbs]
  | cons a t =>
    rw [renderAbs_eq_flatSep (a :: t) (by simp)]
    exact flatSep_length_ge (a :: t)

theorem renderAbs_prefix_iff (sw sa : List GoStr) (hw : goodSegs sw = true)
    (ha : goodSegs sa = true) (hne : sw ≠ []) :
    (goHasPrefix (renderAbs sa ++ [47]) (renderAbs sw ++ [47]) = true) ↔ sw <+: sa := by
  rw [goHasPrefix, List.isPrefixOf_iff_prefix]
  cases hsa : sa with
  | nil =>
    constructor
    · intro h
      exfalso
      have hlen := h.length_le
      rw [renderAbs_eq_flatSep sw hne] at hlen
      cases hsw : sw with
      | nil => exact hne hsw
      | cons s t =>
        have hsmem : s ∈ sw := hsw ▸ List.mem_cons_self s t
        have hs : s ≠ [] := (goodSegs_spec sw hw s hsmem).1.1
        rw [hsw] at hlen
        simp only [flatSep, renderAbs, if_pos rfl] at hlen
        have : 1 ≤ s.length := List.length_pos.mpr hs
        simp at hlen
        omega
    · intro h
      rw [List.prefix_nil] at h
      exact absurd h hne
  | cons a t =>
    rw [renderAbs_eq_flatSep sw hne, renderAbs_eq_flatSep (a :: t) (by simp)]
    exact flatSep_prefix_iff sw (a :: t)
      (fun s hs => (goodSegs_spec sw hw s hs).2)
      (fun s hs => (goodSegs_spec sa ha s (hsa ▸ hs)).2)

theorem splitSlash_no47 (n : GoStr) (h : 47 ∉ n) : splitSlash n = [n] := by
  rw [splitSlash, List.splitOn]
  apply List.splitOnP_eq_single
  intro x hx hbeq
  exact h ((eq_of_beq hbeq) ▸ hx)

theorem cleanRev_nil_seg (rooted : Bool) (stack segs : List GoStr) :
    cleanRev rooted stack ([] :: segs) = cleanRev rooted stack segs := by
  simp [cleanRev]

theorem cleanRev_snoc_nil (rooted : Bool) :
    ∀ (segs stack : List GoStr),
      cleanRev rooted stack (segs ++ [[]]) = cleanRev rooted stack segs := by
  intro segs
  induction segs with
  | nil => intro stack; simp [cleanRev]
  | cons seg rest ih =>
    intro stack
    by_cases h1 : seg = [] ∨ seg = [46]
    · have step : ∀ l, cleanRev rooted stack (seg :: l) = cleanRev rooted stack l := by
        intro l
        simp [cleanRev]
        intro hq
        cases h1 with
        | inl hx => exact absurd hx hq
        | inr hx => simp [hx]
      rw [List.cons_append, step, step, ih]
    · push_neg at h1
      by_cases h2 : seg = [46, 46]
      · subst h2
        cases stack with
        | nil =>
          have step : ∀ l, cleanRev rooted [] ([46, 46] :: l)
              = cleanRev rooted (if rooted then [] else [[46, 46]]) l := by
            intro l
            cases rooted
            · simp [cleanRev, h1.1, h1.2]
            · simp [cleanRev, h1.1, h1.2]
          rw [List.cons_append, step, step, ih]
        | cons top stk =>
          by_cases htop : top = [46, 46]
          · have step : ∀ l, cleanRev rooted (top :: stk) ([46, 46] :: l)
                = cleanRev rooted ([46, 46] :: top :: stk) l := by
              intro l; simp [cleanRev, h1.1, h1.2, htop]
            rw [List.cons_append, step, step, ih]
          · have step : ∀ l, cleanRev rooted (top :: stk) ([46, 46] :: l)
                = cleanRev rooted stk l := by
              intro l; simp [cleanRev, h1.1, h1.2, htop]
            rw [List.cons_append, step, step, ih]
      · have step : ∀ l, cleanRev rooted stack (seg :: l)
            = cleanRev rooted (seg :: stack) l := by
          intro l; simp [cleanRev, h1.1, h1.2, h2]
        rw [List.cons_append, step, step, ih]

theorem modifyHead_append_of_ne_nil (f : GoStr → GoStr) (xs ys : List GoStr) (h : xs ≠ []) :
    (xs ++ ys).modifyHead f = xs.modifyHead f ++ ys := by
  cases xs with
  | nil => exact absurd rfl h
  | cons a t => simp [List.modifyHead]

theorem splitSlash_append_sep (l : GoStr) : splitSlash (l ++ [47]) = splitSlash l ++ [[]] := by
  simp only [splitSlash, List.splitOn]
  induction l with
  | nil => simp [List.splitOnP_cons, List.splitOnP_nil]
  | cons a t ih =>
    rw [List.cons_append, List.splitOnP_cons, List.splitOnP_cons]
    by_cases ha : a = 47
    · simp only [ha, beq_self_eq_true, if_true]
      rw [ih]
      simp
    · have hbeq : (a == 47) = false := beq_false_of_ne ha
      simp only [hbeq, Bool.false_eq_true, if_false]
      rw [ih, modifyHead_append_of_ne_nil _ _ _ (List.splitOnP_ne_nil _ t)]

theorem filepathJoin_renderAbs (s : List GoStr) (n : GoStr) (hs : goodSegs s = true)
    (hn : goodSeg n = true) : filepathJoin (renderAbs s) n = renderAbs (s ++ [n]) := by
  cases hseq : s with
  | nil =>
    rw [filepathJoin]
    have hinput : (renderAbs [] ++ [47] ++ n : GoStr) = 47 :: 47 :: n := by
      simp [renderAbs]
    rw [hinput]
    have hroot : isRooted (47 :: 47 :: n) = true := rfl
    rw [filepathClean_rooted_eq _ hroot]
    rw [show splitSlash (47 :: 47 :: n) = [] :: [] :: splitSlash n by
      rw [splitSlash_cons47, splitSlash_cons47]]
    rw [splitSlash_no47 n (goodSeg_spec n hn).2]
    rw [show cleanSegs true ([] :: [] :: [n]) = cleanSegs true [n] by
      simp [cleanSegs, cleanRev_nil_seg]]
    have := cleanSegs_fixed true 0 [n] (fun _ => rfl)
      (by intro x hx; rw [List.mem_singleton] at hx; exact hx ▸ (goodSeg_spec n hn).1)
    simp only [List.replicate_zero, List.nil_append] at this
    rw [this]
    rfl
  | cons a t =>
    rw [filepathJoin]
    have h1 : (renderAbs (a :: t) ++ [47] ++ n : GoStr) = flatSep ((a :: t) ++ [n]) := by
      rw [renderAbs_eq_flatSep (a :: t) (by simp), flatSep_append]
      simp [flatSep]
    rw [h1, ← renderAbs_eq_flatSep _ (by simp)]
    apply filepathClean_renderAbs
    rw [hseq] at hs
    rw [goodSegs_append, hs]
    simp [goodSegs, hn]

theorem filepathDir_root : filepathDir [47] = [47] := by decide

theorem filepathDir_renderAbs_snoc (s : List GoStr) (n : GoStr) (hs : goodSegs s = true)
    (hn : goodSeg n = true) : filepathDir (renderAbs (s ++ [n])) = renderAbs s := by
  have hn47 : 47 ∉ n := (goodSeg_spec n hn).2
  have hdropn : n.reverse.dropWhile (fun b => decide (b ≠ 47)) = [] := by
    rw [List.dropWhile_eq_nil_iff]
    intro b hb
    simp only [decide_eq_true_eq]
    intro hbq
    exact hn47 (hbq ▸ List.mem_reverse.mp hb)
  cases hseq : s with
  | nil =>
    rw [filepathDir]
    have h1 : (renderAbs ([] ++ [n]) : GoStr) = 47 :: n := by
      simp [renderAbs, joinSegs_singleton]
    rw [h1]
    have h2 : (47 :: n : GoStr).reverse = n.reverse ++ [47] := by simp
    rw [h2, List.dropWhile_append, hdropn]
    simp only [List.isEmpty_nil, if_true]
    rw [show ([47] : GoStr).dropWhile (fun b => decide (b ≠ 47)) = [47] by decide]
    simp [renderAbs]
    decide
  | cons a t =>
    rw [filepathDir]
    have h1 : renderAbs ((a :: t) ++ [n]) = flatSep (a :: t) ++ 47 :: n := by
      rw [renderAbs_eq_flatSep _ (by simp), flatSep_append]
      simp [flatSep]
    rw [h1]
    have h2 : (flatSep (a :: t) ++ 47 :: n).reverse
        = n.reverse ++ 47 :: (flatSep (a :: t)).reverse := by
      simp
    rw [h2, List.dropWhile_append, hdropn]
    simp only [List.isEmpty_nil, if_true]
    rw [show (47 :: (flatSep (a :: t)).reverse).dropWhile (fun b => decide (b ≠ 47))
        = 47 :: (flatSep (a :: t)).reverse by
      rw [List.dropWhile_cons]; simp]
    rw [show (47 :: (flatSep (a :: t)).reverse : GoStr).reverse
        = flatSep (a :: t) ++ [47] by simp]
    have h3 : flatSep (a :: t) ++ [47] = 47 :: (joinSegs (a :: t) ++ [47]) := by
      rw [← renderAbs_eq_flatSep _ (by simp)]
      simp [renderAbs]
    rw [h3]
    have hroot : isRooted (47 :: (joinSegs (a :: t) ++ [47])) = true := rfl
    rw [filepathClean_rooted_eq _ hroot]
    rw [splitSlash_cons47, splitSlash_append_sep]
    rw [hseq] at hs
    rw [splitSlash_joinSegs (a :: t) (fun x hx => (goodSegs_spec _ hs x hx).2) (by simp)]
    rw [show cleanSegs true ([] :: ((a :: t) ++ [[]])) = cleanSegs true ((a :: t) ++ [[]]) by
      simp [cleanSegs, cleanRev_nil_seg]]
    rw [show cleanSegs true ((a :: t) ++ [[]]) = cleanSegs true (a :: t) by
      rw [cleanSegs, cleanSegs, cleanRev_snoc_nil]]
    have := cleanSegs_fixed true 0 (a :: t) (fun _ => rfl)
      (fun x hx => (goodSegs_spec _ hs x hx).1)
    simp only [List.replicate_zero, List.nil_append] at this
    rw [this]

theorem vpcLoop_eq_vpcRev (c : Cleaner) (fs : FsTree) (orig : GoStr) :
    ∀ (r : List GoStr) (fuel : Nat),
      goodSegs r.reverse = true → r.length + 1 ≤ fuel →
      vpcLoop c fs orig fuel (renderAbs r.reverse) = vpcRev c fs orig r := by
  intro r
  induction r with
  | nil =>
    intro fuel _ hfuel
    cases fuel with
    | zero => omega
    | succ f =>
      simp only [List.reverse_nil]
      rw [vpcLoop]
      have hd : filepathDir (renderAbs []) = renderAbs [] := by decide
      simp [hd, vpcRev]
  | cons n r2 ih =>
    intro fuel hg hfuel
    cases fuel with
    | zero => omega
    | succ f =>
      have hrev : (n :: r2).reverse = r2.reverse ++ [n] := by simp
      have hgr : goodSegs (r2.reverse ++ [n]) = true := by rw [← hrev]; exact hg
      have hg2 : goodSegs r2.reverse = true := by
        rw [goodSegs_append] at hgr
        exact (Bool.and_eq_true_iff.mp hgr).1
      have hgn : goodSeg n = true := by
        rw [goodSegs_append] at hgr
        have := (Bool.and_eq_true_iff.mp hgr).2
        simpa [goodSegs] using this
      rw [vpcLoop, vpcRev]
      simp only [hrev]
      rw [filepathDir_renderAbs_snoc r2.reverse n hg2 hgn]
      have hne : renderAbs r2.reverse ≠ renderAbs (r2.reverse ++ [n]) := by
        intro heq
        have := renderAbs_inj _ _ hg2 hgr heq
        have hlen := congrArg List.length this
        simp at hlen
      rw [segsOf_renderAbs_good r2.reverse hg2]
      by_cases hwd : renderAbs r2.reverse = c.workingDir
      · simp [hne, hwd]
      · have hcond : (decide (renderAbs r2.reverse = renderAbs (r2.reverse ++ [n]))
            || decide (renderAbs r2.reverse = c.workingDir)) = false := by
          simp [hne, hwd]
        rw [hcond]
        simp only [Bool.false_eq_true, if_false, if_neg hwd]
        cases hwalk : walkT fs r2.reverse with
        | none => exact ih f hg2 (by simp at hfuel ⊢; omega)
        | some node =>
          by_cases hlink : isLinkT node = true
          · simp [hlink]
          · simp only [hlink, Bool.false_eq_true, if_false]
            exact ih f hg2 (by simp at hfuel ⊢; omega)

theorem validatePathComponents_eq (c : Cleaner) (fs : FsTree) (p : GoStr)
    (hg : isGoodAbs p = true) :
    validatePathComponents c fs p = vpcRev c fs p (segsOf p).reverse := by
  obtain ⟨hgood, hrender⟩ := isGoodAbs_parts p hg
  have h1 : goodSegs ((segsOf p).reverse).reverse = true := by
    rw [List.reverse_reverse]; exact hgood
  have h2 : renderAbs ((segsOf p).reverse).reverse = p := by
    rw [List.reverse_reverse]; exact hrender.symm
  have h3 : (segsOf p).reverse.length + 1 ≤ p.length + 2 := by
    have := length_renderAbs_ge (segsOf p)
    rw [← hrender] at this
    simp
    omega
  show vpcLoop c fs p (p.length + 2) p = vpcRev c fs p (segsOf p).reverse
  calc vpcLoop c fs p (p.length + 2) p
      = vpcLoop c fs p (p.length + 2) (renderAbs ((segsOf p).reverse).reverse) := by rw [h2]
    _ = vpcRev c fs p (segsOf p).reverse :=
        vpcLoop_eq_vpcRev c fs p (segsOf p).reverse (p.length + 2) h1 h3

/-! Filesystem layer lemmas: entry lists, walking and removal. -/

theorem goodEntries_cons (n : GoStr) (t : FsTree) (rest : List (GoStr × FsTree))
    (h : goodEntries ((n, t) :: rest) = true) :
    goodSeg n = true ∧ hasKey n rest = false ∧ goodTree t = true ∧ goodEntries rest = true := by
  rw [goodEntries] at h
  simp only [Bool.and_eq_true, Bool.not_eq_true'] at h
  exact ⟨h.1.1.1, h.1.1.2, h.1.2, h.2⟩

theorem goodTree_dir (es : List (GoStr × FsTree)) (d : Nat)
    (h : goodTree (FsTree.dir es d) = true) : goodEntries es = true := by
  rwa [goodTree] at h

theorem lookupEntry_none_of_hasKey_false (n : GoStr) :
    ∀ es : List (GoStr × FsTree), hasKey n es = false → lookupEntry n es = none := by
  intro es
  induction es with
  | nil => intro _; rfl
  | cons e rest ih =>
    obtain ⟨m, t⟩ := e
    intro h
    rw [hasKey, List.any_cons] at h
    simp only [Bool.or_eq_false_iff, decide_eq_false_iff_not] at h
    rw [lookupEntry, if_neg h.1]
    exact ih (by rw [hasKey]; exact h.2)

theorem goodEntries_lookup (n : GoStr) :
    ∀ es : List (GoStr × FsTree), ∀ t, goodEntries es = true →
      lookupEntry n es = some t → goodTree t = true := by
  intro es
  induction es with
  | nil => intro t _ h; simp [lookupEntry] at h
  | cons e rest ih =>
    obtain ⟨m, t0⟩ := e
    intro t hg hl
    obtain ⟨-, -, hgt, hge⟩ := goodEntries_cons m t0 rest hg
    rw [lookupEntry] at hl
    by_cases hm : m = n
    · rw [if_pos hm] at hl
      injection hl with hl
      exact hl ▸ hgt
    · rw [if_neg hm] at hl
      exact ih t hge hl

theorem lookupEntry_eraseEntry_self (n : GoStr) :
    ∀ es : List (GoStr × FsTree), goodEntries es = true →
      lookupEntry n (eraseEntry n es) = none := by
  intro es
  induction es with
  | nil => intro _; rfl
  | cons e rest ih =>
    obtain ⟨m, t⟩ := e
    intro hg
    obtain ⟨-, hnk, -, hge⟩ := goodEntries_cons m t rest hg
    rw [eraseEntry]
    by_cases hm : m = n
    · rw [if_pos hm]
      exact lookupEntry_none_of_hasKey_false n rest (hm ▸ hnk)
    · rw [if_neg hm, lookupEntry, if_neg hm]
      exact ih hge

theorem lookupEntry_eraseEntry_ne (n m : GoStr) (hnm : m ≠ n) :
    ∀ es : List (GoStr × FsTree),
      lookupEntry m (eraseEntry n es) = lookupEntry m es := by
  intro es
  induction es with
  | nil => rfl
  | cons e rest ih =>
    obtain ⟨k, t⟩ := e
    rw [eraseEntry]
    by_cases hk : k = n
    · rw [if_pos hk]
      have hstep : lookupEntry m ((k, t) :: rest) = lookupEntry m rest := by
        rw [lookupEntry, if_neg (show ¬ k = m by rw [hk]; exact fun h => hnm h.symm)]
      rw [hstep]
    · rw [if_neg hk, lookupEntry, lookupEntry]
      by_cases hkm : k = m
      · rw [if_pos hkm, if_pos hkm]
      · rw [if_neg hkm, if_neg hkm]
        exact ih

theorem lookupEntry_updateEntry_ne (n m : GoStr) (nt : FsTree) (hnm : m ≠ n) :
    ∀ es : List (GoStr × FsTree),
      lookupEntry m (updateEntry n nt es) = lookupEntry m es := by
  intro es
  induction es with
  | nil => rfl
  | cons e rest ih =>
    obtain ⟨k, t⟩ := e
    rw [updateEntry]
    by_cases hk : k = n
    · rw [if_pos hk, lookupEntry, lookupEntry]
      have : k ≠ m := by rw [hk]; exact fun h => hnm h.symm
      rw [if_neg this, if_neg this]
    · rw [if_neg hk, lookupEntry, lookupEntry]
      by_cases hkm : k = m
      · rw [if_pos hkm, if_pos hkm]
      · rw [if_neg hkm, if_neg hkm]
        exact ih

theorem lookupEntry_updateEntry_self (n : GoStr) (nt : FsTree) :
    ∀ es : List (GoStr × FsTree), (lookupEntry n es).isSome = true →
      lookupEntry n (updateEntry n nt es) = some nt := by
  intro es
  induction es with
  | nil => intro h; simp [lookupEntry] at h
  | cons e rest ih =>
    obtain ⟨k, t⟩ := e
    intro h
    rw [updateEntry]
    by_cases hk : k = n
    · rw [if_pos hk, lookupEntry, if_pos hk]
    · rw [if_neg hk, lookupEntry, if_neg hk]
      rw [lookupEntry, if_neg hk] at h
      exact ih h

theorem updateEntry_lookup_eq (n : GoStr) (nt : FsTree) :
    ∀ es : List (GoStr × FsTree), lookupEntry n es = some nt →
      updateEntry n nt es = es := by
  intro es
  induction es with
  | nil => intro h; simp [lookupEntry] at h
  | cons e rest ih =>
    obtain ⟨k, t⟩ := e
    intro h
    rw [updateEntry]
    by_cases hk : k = n
    · rw [if_pos hk]
      rw [lookupEntry, if_pos hk] at h
      injection h with h
      rw [h]
    · rw [if_neg hk]
      rw [lookupEntry, if_neg hk] at h
      rw [ih h]

theorem updateEntry_lookup_none (n : GoStr) (nt : FsTree) :
    ∀ es : List (GoStr × FsTree), lookupEntry n es = none →
      updateEntry n nt es = es := by
  intro es
  induction es with
  | nil => intro _; rfl
  | cons e rest ih =>
    obtain ⟨k, t⟩ := e
    intro h
    rw [lookupEntry] at h
    by_cases hk : k = n
    · rw [if_pos hk] at h; exact absurd h (by simp)
    · rw [if_neg hk] at h
      rw [updateEntry, if_neg hk, ih h]

theorem hasKey_cons (m k : GoStr) (t : FsTree) (rest : List (GoStr × FsTree)) :
    hasKey m ((k, t) :: rest) = (decide (k = m) || hasKey m rest) := by
  rw [hasKey, List.any_cons]; rfl

theorem hasKey_eraseEntry (n m : GoStr) :
    ∀ es : List (GoStr × FsTree), hasKey m (eraseEntry n es) = true →
      hasKey m es = true := by
  intro es
  induction es with
  | nil => intro h; simp [eraseEntry, hasKey] at h
  | cons e rest ih =>
    obtain ⟨k, t⟩ := e
    intro h
    rw [eraseEntry] at h
    by_cases hk : k = n
    · rw [if_pos hk] at h
      rw [hasKey_cons, h]
      simp
    · rw [if_neg hk] at h
      rw [hasKey_cons] at h ⊢
      rcases Bool.or_eq_true_iff.mp h with h2 | h2
      · rw [h2]; simp
      · rw [ih h2]; simp

theorem hasKey_updateEntry (n m : GoStr) (nt : FsTree) :
    ∀ es : List (GoStr × FsTree), hasKey m (updateEntry n nt es) = hasKey m es := by
  intro es
  induction es with
  | nil => rfl
  | cons e rest ih =>
    obtain ⟨k, t⟩ := e
    rw [updateEntry]
    by_cases hk : k = n
    · rw [if_pos hk, hasKey, hasKey, List.any_cons, List.any_cons]
    · rw [if_neg hk, hasKey, hasKey, List.any_cons, List.any_cons, ← hasKey, ← hasKey, ih]

theorem goodEntries_eraseEntry (n : GoStr) :
    ∀ es : List (GoStr × FsTree), goodEntries es = true →
      goodEntries (eraseEntry n es) = true := by
  intro es
  induction es with
  | nil => intro _; rfl
  | cons e rest ih =>
    obtain ⟨k, t⟩ := e
    intro hg
    obtain ⟨hk1, hk2, hk3, hk4⟩ := goodEntries_cons k t rest hg
    rw [eraseEntry]
    by_cases hk : k = n
    · rw [if_pos hk]; exact hk4
    · rw [if_neg hk, goodEntries]
      have hkey : hasKey k (eraseEntry n rest) = false := by
        cases hq : hasKey k (eraseEntry n rest)
        · rfl
        · exact absurd (hasKey_eraseEntry n k rest hq) (by rw [hk2]; simp)
      simp [hk1, hkey, hk3, ih hk4]

theorem goodEntries_updateEntry (n : GoStr) (nt : FsTree) (hnt : goodTree nt = true) :
    ∀ es : List (GoStr × FsTree), goodEntries es = true →
      goodEntries (updateEntry n nt es) = true := by
  intro es
  induction es with
  | nil => intro _; rfl
  | cons e rest ih =>
    obtain ⟨k, t⟩ := e
    intro hg
    obtain ⟨hk1, hk2, hk3, hk4⟩ := goodEntries_cons k t rest hg
    rw [updateEntry]
    by_cases hk : k = n
    · rw [if_pos hk, goodEntries]
      simp [hk1, hk2, hnt, hk4]
    · rw [if_neg hk, goodEntries]
      have hkey : hasKey k (updateEntry n nt rest) = false := by
        rw [hasKey_updateEntry]; exact hk2
      simp [hk1, hkey, hk3, ih hk4]

theorem walkT_append (a : List GoStr) :
    ∀ (t : FsTree) (b : List GoStr),
      walkT t (a ++ b) = match walkT t a with
        | some t2 => walkT t2 b
        | none => none := by
  induction a with
  | nil => intro t b; cases t <;> rfl
  | cons n rest ih =>
    intro t b
    cases t with
    | file c d => rfl
    | link dest d => rfl
    | dir es d =>
      rw [List.cons_append, walkT, walkT]
      cases lookupEntry n es with
      | some t2 => exact ih t2 b
      | none => rfl

theorem walkT_none_append (t : FsTree) (a b : List GoStr) (h : walkT t a = none) :
    walkT t (a ++ b) = none := by
  rw [walkT_append, h]

theorem walkT_dir_cons (es : List (GoStr × FsTree)) (d : Nat) (n : GoStr) (q : List GoStr) :
    walkT (FsTree.dir es d) (n :: q)
      = match lookupEntry n es with
        | some t => walkT t q
        | none => none := rfl

theorem removeSegs_nil (t : FsTree) : removeSegs t [] = (t, false) := by
  cases t <;> rfl

theorem walkT_nil (t : FsTree) : walkT t [] = some t := by
  cases t <;> rfl

theorem removeSegs_lookup_none (es : List (GoStr × FsTree)) (d : Nat) (n : GoStr)
    (rest : List GoStr) (hl : lookupEntry n es = none) :
    removeSegs (FsTree.dir es d) (n :: rest) = (FsTree.dir es d, false) := by
  simp [removeSegs, hl]

theorem removeSegs_last (es : List (GoStr × FsTree)) (d : Nat) (n : GoStr) (t0 : FsTree)
    (hl : lookupEntry n es = some t0) :
    removeSegs (FsTree.dir es d) [n]
      = (if removable t0 then (FsTree.dir (eraseEntry n es) d, true)
         else (FsTree.dir es d, false)) := by
  by_cases hrem : removable t0 = true
  · simp [removeSegs, hl, hrem]
  · rw [if_neg hrem]
    simp only [Bool.not_eq_true] at hrem
    simp [removeSegs, hl, hrem]

theorem removeSegs_deeper (es : List (GoStr × FsTree)) (d : Nat) (n r0 : GoStr)
    (rrest : List GoStr) (t0 : FsTree) (hl : lookupEntry n es = some t0) :
    removeSegs (FsTree.dir es d) (n :: r0 :: rrest)
      = (FsTree.dir (updateEntry n (removeSegs t0 (r0 :: rrest)).1 es) d,
         (removeSegs t0 (r0 :: rrest)).2) := by
  simp [removeSegs, hl]

theorem removeSegs_non_dir (t : FsTree) (n : GoStr) (rest : List GoStr)
    (ht : isDirT t = false) : removeSegs t (n :: rest) = (t, false) := by
  cases t with
  | file c d => rfl
  | link dest d => rfl
  | dir es d => rw [isDirT] at ht; exact absurd ht (by simp)

theorem removeSegs_fail (p : List GoStr) :
    ∀ t : FsTree, (removeSegs t p).2 = false → (removeSegs t p).1 = t := by
  induction p with
  | nil => intro t _; rw [removeSegs_nil]
  | cons n rest ih =>
    intro t h
    cases t with
    | file c d => rfl
    | link dest d => rfl
    | dir es d =>
      cases hl : lookupEntry n es with
      | none => rw [removeSegs_lookup_none es d n rest hl]
      | some t0 =>
        cases rest with
        | nil =>
          rw [removeSegs_last es d n t0 hl] at h ⊢
          by_cases hrem : removable t0 = true
          · rw [if_pos hrem] at h; simp at h
          · rw [if_neg hrem]
        | cons r0 rrest =>
          rw [removeSegs_deeper es d n r0 rrest t0 hl] at h ⊢
          simp only at h
          have h1 := ih t0 h
          simp only [h1]
          rw [updateEntry_lookup_eq n t0 es hl]

theorem removeSegs_frame (p : List GoStr) :
    ∀ (t : FsTree) (q : List GoStr), ¬ (p <+: q) → ¬ (q <+: p) →
      walkT (removeSegs t p).1 q = walkT t q := by
  induction p with
  | nil => intro t q hpq _; exact absurd List.nil_prefix hpq
  | cons n rest ih =>
    intro t q hpq hqp
    cases t with
    | file c d => rfl
    | link dest d => rfl
    | dir es d =>
      cases hl : lookupEntry n es with
      | none => rw [removeSegs_lookup_none es d n rest hl]
      | some t0 =>
        cases q with
        | nil => exact absurd List.nil_prefix hqp
        | cons m q2 =>
          by_cases hnm : n = m
          · subst hnm
            cases rest with
            | nil =>
              exact absurd (List.cons_prefix_cons.mpr ⟨rfl, List.nil_prefix⟩) hpq
            | cons r0 rrest =>
              rw [removeSegs_deeper es d n r0 rrest t0 hl]
              have hpq2 : ¬ ((r0 :: rrest) <+: q2) := by
                intro hc; exact hpq (List.cons_prefix_cons.mpr ⟨rfl, hc⟩)
              have hqp2 : ¬ (q2 <+: (r0 :: rrest)) := by
                intro hc; exact hqp (List.cons_prefix_cons.mpr ⟨rfl, hc⟩)
              rw [walkT_dir_cons, walkT_dir_cons]
              cases hcase : (lookupEntry n es).isSome with
              | true =>
                rw [lookupEntry_updateEntry_self n _ es hcase, hl]
                exact ih t0 q2 hpq2 hqp2
              | false => rw [hl] at hcase; simp at hcase
          · cases rest with
            | nil =>
              rw [removeSegs_last es d n t0 hl]
              by_cases hrem : removable t0 = true
              · rw [if_pos hrem]
                rw [walkT_dir_cons, walkT_dir_cons,
                  lookupEntry_eraseEntry_ne n m (fun hq => hnm hq.symm) es]
              · rw [if_neg hrem]
            | cons r0 rrest =>
              rw [removeSegs_deeper es d n r0 rrest t0 hl]
              rw [walkT_dir_cons, walkT_dir_cons,
                lookupEntry_updateEntry_ne n m _ (fun hq => hnm hq.symm) es]

theorem sigT_of_walk_eq (g g2 : FsTree) (q : List GoStr)
    (h : walkT g2 q = walkT g q) : sigT g2 q = sigT g q := by
  rw [sigT, sigT, h]

theorem removeSegs_sig (p : List GoStr) :
    ∀ (t : FsTree) (q : List GoStr), ¬ (p <+: q) →
      sigT (removeSegs t p).1 q = sigT t q := by
  induction p with
  | nil => intro t q hpq; exact absurd List.nil_prefix hpq
  | cons n rest ih =>
    intro t q hpq
    cases t with
    | file c d => rfl
    | link dest d => rfl
    | dir es d =>
      cases hl : lookupEntry n es with
      | none => rw [removeSegs_lookup_none es d n rest hl]
      | some t0 =>
        cases q with
        | nil =>
          cases rest with
          | nil =>
            rw [removeSegs_last es d n t0 hl]
            by_cases hrem : removable t0 = true
            · rw [if_pos hrem]; rfl
            · rw [if_neg hrem]
          | cons r0 rrest =>
            rw [removeSegs_deeper es d n r0 rrest t0 hl]; rfl
        | cons m q2 =>
          by_cases hnm : n = m
          · subst hnm
            cases rest with
            | nil => exact absurd (List.cons_prefix_cons.mpr ⟨rfl, List.nil_prefix⟩) hpq
            | cons r0 rrest =>
              rw [removeSegs_deeper es d n r0 rrest t0 hl]
              have hpq2 : ¬ ((r0 :: rrest) <+: q2) := by
                intro hc; exact hpq (List.cons_prefix_cons.mpr ⟨rfl, hc⟩)
              rw [sigT, sigT, walkT_dir_cons, walkT_dir_cons]
              cases hcase : (lookupEntry n es).isSome with
              | true =>
                rw [lookupEntry_updateEntry_self n _ es hcase, hl]
                have := ih t0 q2 hpq2
                rw [sigT, sigT] at this
                exact this
              | false => rw [hl] at hcase; simp at hcase
          · cases rest with
            | nil =>
              rw [removeSegs_last es d n t0 hl]
              by_cases hrem : removable t0 = true
              · rw [if_pos hrem]
                rw [sigT, sigT, walkT_dir_cons, walkT_dir_cons,
                  lookupEntry_eraseEntry_ne n m (fun hq => hnm hq.symm) es]
              · rw [if_neg hrem]
            | cons r0 rrest =>
              rw [removeSegs_deeper es d n r0 rrest t0 hl]
              rw [sigT, sigT, walkT_dir_cons, walkT_dir_cons,
                lookupEntry_updateEntry_ne n m _ (fun hq => hnm hq.symm) es]

theorem removeSegs_succ_walk (p : List GoStr) :
    ∀ t : FsTree, goodTree t = true → (removeSegs t p).2 = true →
      walkT (removeSegs t p).1 p = none := by
  induction p with
  | nil => intro t _ h; rw [removeSegs_nil] at h; simp at h
  | cons n rest ih =>
    intro t hg h
    cases t with
    | file c d => rw [removeSegs_non_dir (FsTree.file c d) n rest rfl] at h; simp at h
    | link dest d => rw [removeSegs_non_dir (FsTree.link dest d) n rest rfl] at h; simp at h
    | dir es d =>
      have hge : goodEntries es = true := goodTree_dir es d hg
      cases hl : lookupEntry n es with
      | none => rw [removeSegs_lookup_none es d n rest hl] at h; simp at h
      | some t0 =>
        cases rest with
        | nil =>
          rw [removeSegs_last es d n t0 hl] at h ⊢
          by_cases hrem : removable t0 = true
          · rw [if_pos hrem] at h ⊢
            simp only
            rw [walkT_dir_cons, lookupEntry_eraseEntry_self n es hge]
          · rw [if_neg hrem] at h; simp at h
        | cons r0 rrest =>
          rw [removeSegs_deeper es d n r0 rrest t0 hl] at h ⊢
          simp only at h ⊢
          rw [walkT_dir_cons]
          cases hcase : (lookupEntry n es).isSome with
          | true =>
            rw [lookupEntry_updateEntry_self n _ es hcase]
            exact ih t0 (goodEntries_lookup n es t0 hge hl) h
          | false => rw [hl] at hcase; simp at hcase

theorem removeSegs_succ_walk_ext (p q : List GoStr) (t : FsTree)
    (hg : goodTree t = true) (h : (removeSegs t p).2 = true) :
    walkT (removeSegs t p).1 (p ++ q) = none :=
  walkT_none_append _ p q (removeSegs_succ_walk p t hg h)

theorem removeSegs_succ_of_walk (p : List GoStr) :
    ∀ (t tn : FsTree), walkT t p = some tn → removable tn = true → p ≠ [] →
      (removeSegs t p).2 = true := by
  induction p with
  | nil => intro t tn _ _ hne; exact absurd rfl hne
  | cons n rest ih =>
    intro t tn hw hrem _
    cases t with
    | file c d => exact absurd hw (by simp [walkT])
    | link dest d => exact absurd hw (by simp [walkT])
    | dir es d =>
      rw [walkT_dir_cons] at hw
      cases hl : lookupEntry n es with
      | none => rw [hl] at hw; exact absurd hw (by simp)
      | some t0 =>
        rw [hl] at hw
        have hw2 : walkT t0 rest = some tn := hw
        cases rest with
        | nil =>
          rw [walkT_nil] at hw2
          injection hw2 with hw2
          rw [removeSegs_last es d n t0 hl, hw2, if_pos hrem]
        | cons r0 rrest =>
          rw [removeSegs_deeper es d n r0 rrest t0 hl]
          exact ih t0 tn hw2 hrem (by simp)

theorem removeSegs_good (p : List GoStr) :
    ∀ t : FsTree, goodTree t = true → goodTree (removeSegs t p).1 = true := by
  induction p with
  | nil => intro t hg; rw [removeSegs_nil]; exact hg
  | cons n rest ih =>
    intro t hg
    cases t with
    | file c d => rw [removeSegs_non_dir (FsTree.file c d) n rest rfl]; exact hg
    | link dest d => rw [removeSegs_non_dir (FsTree.link dest d) n rest rfl]; exact hg
    | dir es d =>
      have hge : goodEntries es = true := goodTree_dir es d hg
      cases hl : lookupEntry n es with
      | none => rw [removeSegs_lookup_none es d n rest hl]; exact hg
      | some t0 =>
        cases rest with
        | nil =>
          rw [removeSegs_last es d n t0 hl]
          by_cases hrem : removable t0 = true
          · rw [if_pos hrem]
            rw [goodTree]
            exact goodEntries_eraseEntry n es hge
          · rw [if_neg hrem]; exact hg
        | cons r0 rrest =>
          rw [removeSegs_deeper es d n r0 rrest t0 hl]
          simp only
          rw [goodTree]
          exact goodEntries_updateEntry n _
            (ih t0 (goodEntries_lookup n es t0 hge hl)) es hge

/-! Mutation containment: everything the engine changes sits below known
roots. -/

theorem MutUnder_refl (roots : List (List GoStr)) (g : FsTree) : MutUnder roots g g :=
  ⟨fun _ _ => rfl, fun _ _ => rfl⟩

theorem MutUnder_trans (roots : List (List GoStr)) (g g1 g2 : FsTree)
    (h1 : MutUnder roots g g1) (h2 : MutUnder roots g1 g2) : MutUnder roots g g2 :=
  ⟨fun q hq => (h2.1 q hq).trans (h1.1 q hq),
   fun q hq => (h2.2 q hq).trans (h1.2 q hq)⟩

theorem MutUnder_sub (roots roots2 : List (List GoStr)) (g g2 : FsTree)
    (hsub : ∀ r ∈ roots, r ∈ roots2) (h : MutUnder roots g g2) : MutUnder roots2 g g2 :=
  ⟨fun q hq => h.1 q (fun r hr => hq r (hsub r hr)),
   fun q hq => h.2 q (fun r hr => hq r (hsub r hr))⟩

theorem MutUnder_concat (r1 r2 : List (List GoStr)) (g g1 g2 : FsTree)
    (h1 : MutUnder r1 g g1) (h2 : MutUnder r2 g1 g2) : MutUnder (r1 ++ r2) g g2 := by
  constructor
  · intro q hq
    have e2 := h2.1 q (fun r hr => hq r (List.mem_append_right r1 hr))
    have e1 := h1.1 q (fun r hr => hq r (List.mem_append_left r2 hr))
    exact e2.trans e1
  · intro q hq
    have e2 := h2.2 q (fun r hr => hq r (List.mem_append_right r1 hr))
    have e1 := h1.2 q (fun r hr => hq r (List.mem_append_left r2 hr))
    exact e2.trans e1

theorem MutUnder_anc (roots : List (List GoStr)) (sp : List GoStr) (g g2 : FsTree)
    (hext : ∀ r ∈ roots, sp <+: r) (h : MutUnder roots g g2) : MutUnder [sp] g g2 := by
  constructor
  · intro q hq
    have hsp := hq sp (List.mem_singleton_self sp)
    refine h.1 q (fun r hr => ⟨?_, ?_⟩)
    · intro hc
      exact hsp.1 ((hext r hr).trans hc)
    · intro hc
      rcases List.prefix_or_prefix_of_prefix hc (hext r hr) with h2 | h2
      · exact hsp.2 h2
      · exact hsp.1 h2
  · intro q hq
    have hsp := hq sp (List.mem_singleton_self sp)
    refine h.2 q (fun r hr => ?_)
    intro hc
    exact hsp ((hext r hr).trans hc)

theorem MutUnder_removeSegs (g : FsTree) (p : List GoStr) :
    MutUnder [p] g (removeSegs g p).1 := by
  constructor
  · intro q hq
    have h := hq p (List.mem_singleton_self p)
    exact removeSegs_frame p g q h.1 h.2
  · intro q hq
    exact removeSegs_sig p g q (hq p (List.mem_singleton_self p))

theorem resolveSegs_renderAbs (cwd : GoStr) (s : List GoStr) (hg : goodSegs s = true) :
    resolveSegs cwd (renderAbs s) = s := by
  rw [resolveSegs, filepathAbs, if_pos (isRooted_renderAbs s),
    filepathClean_renderAbs s hg, segsOf_renderAbs_good s hg]

theorem validate_none_parts (cwd : GoStr) (c : Cleaner) (fs : FsTree) (p : GoStr)
    (h : validatePathSecurity cwd c fs p = none) :
    utf8ValidString p = true ∧ goContains [0] p = false ∧
    goHasPrefix (filepathAbs cwd p ++ [47]) (c.workingDir ++ [47]) = true ∧
    filepathAbs cwd p ≠ c.workingDir ∧
    validatePathComponents c fs (filepathAbs cwd p) = none := by
  simp only [validatePathSecurity] at h
  split_ifs at h with h1 h2 h3 h4 h5 h6 h7
  refine ⟨by simpa using h1, by simpa using h2, ?_, h5, h⟩
  cases hq : goHasPrefix (filepathAbs cwd p ++ [47]) (c.workingDir ++ [47])
  · rw [hq] at h4; simp at h4
  · rfl

theorem validate_none_strictUnder (cwd : GoStr) (c : Cleaner) (fs : FsTree) (p : GoStr)
    (h : validatePathSecurity cwd c fs p = none) : StrictUnder cwd c p := by
  obtain ⟨-, -, h3, h4, -⟩ := validate_none_parts cwd c fs p h
  exact ⟨h3, h4⟩

/-! The recursive deletion engine: unfolding equations and the master
invariants. -/

theorem srmEntries_nil_eq (cwd : GoStr) (c : Cleaner) (g : FsTree) (path : GoStr) :
    srmEntries cwd c g path [] = (g, []) := by
  simp only [srmEntries]

theorem srmEntries_cons_eq (cwd : GoStr) (c : Cleaner) (g : FsTree) (path nm : GoStr)
    (t : FsTree) (rest : List (GoStr × FsTree)) :
    srmEntries cwd c g path ((nm, t) :: rest)
      = ((srmEntries cwd c
            (if (validatePathSecurity cwd c g (filepathJoin path nm)).isSome then (g, [])
             else srmStep cwd c g (filepathJoin path nm) t).1 path rest).1,
         (if (validatePathSecurity cwd c g (filepathJoin path nm)).isSome then (g, ([] : List GoStr))
          else srmStep cwd c g (filepathJoin path nm) t).2
           ++ (srmEntries cwd c
            (if (validatePathSecurity cwd c g (filepathJoin path nm)).isSome then (g, [])
             else srmStep cwd c g (filepathJoin path nm) t).1 path rest).2) := by
  simp only [srmEntries]

theorem srmStep_link_eq (cwd : GoStr) (c : Cleaner) (g : FsTree) (ep dest : GoStr) (d : Nat) :
    srmStep cwd c g ep (FsTree.link dest d)
      = ((removeSegs g (resolveSegs cwd ep)).1, [ep]) := by
  simp only [srmStep]

theorem srmStep_file_eq (cwd : GoStr) (c : Cleaner) (g : FsTree) (ep : GoStr)
    (c0 : List Nat) (d : Nat) :
    srmStep cwd c g ep (FsTree.file c0 d)
      = ((removeSegs g (resolveSegs cwd ep)).1, [ep]) := by
  simp only [srmStep]

theorem srmStep_dir_eq (cwd : GoStr) (c : Cleaner) (g : FsTree) (ep : GoStr)
    (es2 : List (GoStr × FsTree)) (d2 : Nat) :
    srmStep cwd c g ep (FsTree.dir es2 d2)
      = ((srmNode cwd c g ep (FsTree.dir es2 d2)).1,
         (srmNode cwd c g ep (FsTree.dir es2 d2)).2.2) := by
  simp only [srmStep]

theorem srmNode_dir_eq (cwd : GoStr) (c : Cleaner) (g : FsTree) (path : GoStr)
    (es : List (GoStr × FsTree)) (d : Nat) :
    srmNode cwd c g path (FsTree.dir es d)
      = ((removeSegs (srmEntries cwd c g path es).1 (resolveSegs cwd path)).1,
         (if (removeSegs (srmEntries cwd c g path es).1 (resolveSegs cwd path)).2 then none
          else some DelError.removeFailed),
         (srmEntries cwd c g path es).2 ++ [path]) := by
  simp only [srmNode]

theorem srmNode_file_eq (cwd : GoStr) (c : Cleaner) (g : FsTree) (path : GoStr)
    (c0 : List Nat) (d : Nat) :
    srmNode cwd c g path (FsTree.file c0 d) = (g, some DelError.openFailed, []) := by
  rw [srmNode]
  simp

theorem srmNode_link_eq (cwd : GoStr) (c : Cleaner) (g : FsTree) (path : GoStr)
    (dest : GoStr) (d : Nat) :
    srmNode cwd c g path (FsTree.link dest d) = (g, some DelError.openFailed, []) := by
  rw [srmNode]
  simp

theorem srmStep_spec (cwd : GoStr) (c : Cleaner) (g : FsTree) (sp : List GoStr) (nm : GoStr)
    (t : FsTree) (hsp : goodSegs sp = true) (hnm : goodSeg nm = true)
    (hnode : SrmNodeSpec t) (hgt : goodTree t = true) :
    MutUnder [sp ++ [nm]] g (srmStep cwd c g (filepathJoin (renderAbs sp) nm) t).1 ∧
    (goodTree g = true → goodTree (srmStep cwd c g (filepathJoin (renderAbs sp) nm) t).1 = true) ∧
    (StrictUnder cwd c (filepathJoin (renderAbs sp) nm) →
      ∀ r ∈ (srmStep cwd c g (filepathJoin (renderAbs sp) nm) t).2, StrictUnder cwd c r) := by
  have hj : filepathJoin (renderAbs sp) nm = renderAbs (sp ++ [nm]) :=
    filepathJoin_renderAbs sp nm hsp hnm
  have hgsn : goodSegs (sp ++ [nm]) = true := by
    rw [goodSegs_append, hsp]
    simp [goodSegs, hnm]
  cases t with
  | link dest d =>
    rw [srmStep_link_eq, hj, resolveSegs_renderAbs cwd _ hgsn]
    refine ⟨MutUnder_removeSegs g _, fun hg => removeSegs_good _ g hg, ?_⟩
    intro hsu r hr
    rw [List.mem_singleton] at hr
    subst hr
    exact hsu
  | file c0 d =>
    rw [srmStep_file_eq, hj, resolveSegs_renderAbs cwd _ hgsn]
    refine ⟨MutUnder_removeSegs g _, fun hg => removeSegs_good _ g hg, ?_⟩
    intro hsu r hr
    rw [List.mem_singleton] at hr
    subst hr
    exact hsu
  | dir es2 d2 =>
    rw [srmStep_dir_eq]
    obtain ⟨h1, h2, h3⟩ := hnode cwd c g (filepathJoin (renderAbs sp) nm) (sp ++ [nm]) hgsn hj hgt
    exact ⟨h1, h2, h3⟩

theorem srmEntries_nil_spec : SrmEntriesSpec [] := by
  intro cwd c g path sp _ _ _
  rw [srmEntries_nil_eq]
  refine ⟨?_, fun hg => hg, ?_⟩
  · simp only [List.map_nil]
    exact MutUnder_refl [] g
  · intro r hr
    simp at hr

theorem srmEntries_cons_spec (nm : GoStr) (t : FsTree) (rest : List (GoStr × FsTree))
    (hnode : SrmNodeSpec t) (hrest : SrmEntriesSpec rest) :
    SrmEntriesSpec ((nm, t) :: rest) := by
  intro cwd c g path sp hsp hpath hge
  obtain ⟨hnm, hkey, hgt, hger⟩ := goodEntries_cons nm t rest hge
  have hmap : ((nm, t) :: rest).map (fun e => sp ++ [e.1])
      = [sp ++ [nm]] ++ rest.map (fun e => sp ++ [e.1]) := by simp
  by_cases hval : (validatePathSecurity cwd c g (filepathJoin path nm)).isSome = true
  · rw [srmEntries_cons_eq]
    simp only [hval, if_true]
    obtain ⟨r1, r2, r3⟩ := hrest cwd c g path sp hsp hpath hger
    refine ⟨?_, r2, ?_⟩
    · rw [hmap]
      exact MutUnder_sub _ _ _ _ (fun r hr => List.mem_append_right _ hr) r1
    · intro r hr
      simp only [List.nil_append] at hr
      exact r3 r hr
  · have hvn : validatePathSecurity cwd c g (filepathJoin path nm) = none :=
      Option.not_isSome_iff_eq_none.mp hval
    have hsu : StrictUnder cwd c (filepathJoin path nm) :=
      validate_none_strictUnder cwd c g _ hvn
    rw [srmEntries_cons_eq]
    simp only [hval, Bool.false_eq_true, if_false]
    obtain ⟨s1, s2, s3⟩ := srmStep_spec cwd c g sp nm t hsp hnm hnode hgt
    rw [← hpath] at s1 s2 s3
    obtain ⟨r1, r2, r3⟩ := hrest cwd c
      (srmStep cwd c g (filepathJoin path nm) t).1 path sp hsp hpath hger
    refine ⟨?_, fun hg => r2 (s2 hg), ?_⟩
    · rw [hmap]
      exact MutUnder_concat _ _ _ _ _ s1 r1
    · intro r hr
      rcases List.mem_append.mp hr with hr | hr
      · exact s3 hsu r hr
      · exact r3 r hr

theorem srm_master (t0 : FsTree) : SrmNodeSpec t0 := by
  induction t0 using FsTree.rec
    (motive_2 := fun es => SrmEntriesSpec es)
    (motive_3 := fun e => SrmNodeSpec e.2) with
  | file c0 d =>
    intro cwd c g path sp _ _ _
    rw [srmNode_file_eq]
    exact ⟨MutUnder_refl [sp] g, fun hg => hg, fun _ r hr => by simp at hr⟩
  | link dest d =>
    intro cwd c g path sp _ _ _
    rw [srmNode_link_eq]
    exact ⟨MutUnder_refl [sp] g, fun hg => hg, fun _ r hr => by simp at hr⟩
  | dir es d ih =>
    intro cwd c g path sp hsp hpath hgt
    have hge : goodEntries es = true := goodTree_dir es d hgt
    obtain ⟨h1, h2, h3⟩ := ih cwd c g path sp hsp hpath hge
    rw [srmNode_dir_eq]
    refine ⟨?_, ?_, ?_⟩
    · have hroots : ∀ r ∈ es.map (fun e => sp ++ [e.1]), sp <+: r := by
        intro r hr
        rw [List.mem_map] at hr
        obtain ⟨e, -, he⟩ := hr
        rw [← he]
        exact List.prefix_append sp [e.1]
      have hA : MutUnder [sp] g (srmEntries cwd c g path es).1 :=
        MutUnder_anc _ sp _ _ hroots h1
      have hB : MutUnder [sp] (srmEntries cwd c g path es).1
          (removeSegs (srmEntries cwd c g path es).1 (resolveSegs cwd path)).1 := by
        rw [hpath, resolveSegs_renderAbs cwd sp hsp]
        exact MutUnder_removeSegs _ sp
      exact MutUnder_trans _ _ _ _ hA hB
    · intro hg
      exact removeSegs_good _ _ (h2 hg)
    · intro hsu r hr
      simp only at hr
      rcases List.mem_append.mp hr with hr | hr
      · exact h3 r hr
      · rw [List.mem_singleton] at hr
        subst hr
        exact hsu
  | nil => exact srmEntries_nil_spec
  | cons e rest ihe ihr =>
    obtain ⟨nm, t⟩ := e
    exact srmEntries_cons_spec nm t rest ihe ihr
  | mk nm t iht => exact iht

theorem srmEntries_master (es : List (GoStr × FsTree)) : SrmEntriesSpec es := by
  induction es with
  | nil => exact srmEntries_nil_spec
  | cons e rest ihr =>
    obtain ⟨nm, t⟩ := e
    exact srmEntries_cons_spec nm t rest (srm_master t) ihr

theorem walkT_good (q : List GoStr) :
    ∀ (g t : FsTree), goodTree g = true → walkT g q = some t → goodTree t = true := by
  induction q with
  | nil =>
    intro g t hg hw
    rw [walkT_nil] at hw
    cases hw
    exact hg
  | cons n rest ih =>
    intro g t hg hw
    cases g with
    | file c d => simp [walkT] at hw
    | link dest d => simp [walkT] at hw
    | dir es d =>
      rw [walkT_dir_cons] at hw
      cases hl : lookupEntry n es with
      | none => rw [hl] at hw; simp at hw
      | some t2 =>
        rw [hl] at hw
        exact ih t2 t (goodEntries_lookup n es t2 (goodTree_dir es d hg) hl) hw

theorem srmEntries_append (cwd : GoStr) (c : Cleaner) (path : GoStr)
    (es1 es2 : List (GoStr × FsTree)) :
    ∀ g : FsTree, srmEntries cwd c g path (es1 ++ es2)
      = ((srmEntries cwd c (srmEntries cwd c g path es1).1 path es2).1,
         (srmEntries cwd c g path es1).2
           ++ (srmEntries cwd c (srmEntries cwd c g path es1).1 path es2).2) := by
  induction es1 with
  | nil =>
    intro g
    simp [srmEntries_nil_eq]
  | cons e rest ih =>
    obtain ⟨nm, t⟩ := e
    intro g
    rw [List.cons_append, srmEntries_cons_eq, srmEntries_cons_eq, ih]
    simp [List.append_assoc]

theorem vpcLoop_reason (c : Cleaner) (fs : FsTree) (orig : GoStr) :
    ∀ (fuel : Nat) (cur : GoStr) (e : SecurityError),
      vpcLoop c fs orig fuel cur = some e
        → ∃ par, e = ⟨orig, Reason.parentSymlink par⟩ := by
  intro fuel
  induction fuel with
  | zero => intro cur e h; simp [vpcLoop] at h
  | succ n ih =>
    intro cur e h
    rw [vpcLoop] at h
    split_ifs at h with h1
    revert h
    cases hw : walkT fs (segsOf (filepathDir cur)) with
    | some node =>
      simp only []
      split_ifs with h2
      · intro h
        cases h
        exact ⟨filepathDir cur, rfl⟩
      · exact ih _ e
    | none => exact ih _ e

theorem prefix_of_snoc_proper (q xs : List GoStr) (a : GoStr)
    (h : q <+: xs ++ [a]) (hne : q ≠ xs ++ [a]) : q <+: xs := by
  have hle : q.length ≤ xs.length := by
    have h1 : q.length ≤ (xs ++ [a]).length := h.length_le
    rw [List.length_append, List.length_singleton] at h1
    rcases Nat.lt_or_ge q.length (xs.length + 1) with h2 | h2
    · omega
    · exfalso
      exact hne (h.eq_of_length (by
        rw [List.length_append, List.length_singleton]; omega))
  exact List.prefix_of_prefix_length_le h (List.prefix_append xs [a]) hle

theorem vpcRev_detect (c : Cleaner) (fs : FsTree) (orig : GoStr) (sw : List GoStr)
    (hwd : c.workingDir = renderAbs sw) (hgw : goodSegs sw = true) (q : List GoStr)
    (hlink : ∃ node, walkT fs q = some node ∧ isLinkT node = true)
    (hqw : sw <+: q) (hqnw : q ≠ sw) :
    ∀ (l : List GoStr), goodSegs l.reverse = true →
      q <+: l.reverse → q ≠ l.reverse →
      vpcRev c fs orig l ≠ none := by
  intro l
  induction l with
  | nil =>
    intro _ hpre hne
    exact absurd (List.prefix_nil.mp (by simpa using hpre)) (by simpa using hne)
  | cons a r ih =>
    intro hg hpre hne
    rw [List.reverse_cons] at hpre hne hg
    have hgr : goodSegs r.reverse = true := by
      rw [goodSegs_append] at hg
      exact (Bool.and_eq_true_iff.mp hg).1
    have hq_r : q <+: r.reverse := prefix_of_snoc_proper q r.reverse a hpre hne
    rw [vpcRev]
    by_cases hpar : renderAbs r.reverse = c.workingDir
    · exfalso
      rw [hwd] at hpar
      have hrsw : r.reverse = sw := renderAbs_inj _ _ hgr hgw hpar
      rw [hrsw] at hq_r
      exact hqnw (hqw.eq_of_length
        (le_antisymm hqw.length_le hq_r.length_le)).symm
    · rw [if_neg hpar]
      cases hw : walkT fs r.reverse with
      | some node =>
        by_cases hl : isLinkT node = true
        · simp [hl]
        · simp only [hl, Bool.false_eq_true, if_false]
          by_cases hqr : q = r.reverse
          · exfalso
            obtain ⟨nd, hnd, hndl⟩ := hlink
            rw [hqr, hw] at hnd
            cases hnd
            exact hl hndl
          · exact ih hgr hq_r hqr
      | none =>
        by_cases hqr : q = r.reverse
        · exfalso
          obtain ⟨nd, hnd, -⟩ := hlink
          rw [hqr, hw] at hnd
          cases hnd
        · exact ih hgr hq_r hqr

theorem secureRemoveAll_trace (cwd : GoStr) (c : Cleaner) (fs : FsTree) (target : GoStr)
    (htg : isGoodAbs target = true) (hfs : goodTree fs = true)
    (hsu : StrictUnder cwd c target) :
    ∀ r ∈ (secureRemoveAll cwd c fs target).2.2, StrictUnder cwd c r := by
  intro r hr
  obtain ⟨hgs, hrend⟩ := isGoodAbs_parts target htg
  rw [secureRemoveAll] at hr
  cases hw : walkT fs (resolveSegs cwd target) with
  | none => rw [hw] at hr; simp at hr
  | some node =>
    rw [hw] at hr
    have hres : resolveSegs cwd target = segsOf target := by
      conv_lhs => rw [hrend]
      rw [resolveSegs_renderAbs cwd _ hgs]
    have hnode : goodTree node = true := by
      rw [hres] at hw
      exact walkT_good _ fs node hfs hw
    exact ((srm_master node) cwd c fs target (segsOf target) hgs hrend hnode).2.2 hsu r hr

theorem secureDeleteDirectory_trace (cwd : GoStr) (c : Cleaner) (fs : FsTree)
    (target : GoStr) (htg : isGoodAbs target = true) (hfs : goodTree fs = true) :
    ∀ r ∈ (secureDeleteDirectory cwd c fs target).2.2, StrictUnder cwd c r := by
  intro r hr
  rw [secureDeleteDirectory] at hr
  cases hv : validatePathSecurity cwd c fs target with
  | some e => rw [hv] at hr; simp at hr
  | none =>
    rw [hv] at hr
    cases hw : walkT fs (resolveSegs cwd target) with
    | none => rw [hw] at hr; simp at hr
    | some node =>
      rw [hw] at hr
      simp only [] at hr
      split_ifs at hr with hl hd
      · simp at hr
      · simp at hr
      · exact secureRemoveAll_trace cwd c fs target htg hfs
          (validate_none_strictUnder cwd c fs target hv) r hr

theorem calculateDirSize_dir (es : List (GoStr × FsTree)) (d : Nat) :
    calculateDirSize (FsTree.dir es d) = (es.map (fun e => calculateDirSize e.2)).sum := by
  rw [calculateDirSize]
  induction es with
  | nil => simp [calcEntries]
  | cons e rest ih =>
    obtain ⟨n, t⟩ := e
    simp [calcEntries, ih]

/-! The claims. -/

/-- C2: the interactive UI's deletion step hands the selected target
straight to `os.RemoveAll` without consulting the Security Validator the
cleanup command installed on the model: a target the validator rejects —
here /w/t, denied for crossing a filesystem boundary (device 2 under a
device-1 working directory) — is removed from disk anyway. -/
theorem c2_ui_deletion_bypasses_validator :
    validatePathSecurity [47, 119] ⟨[47, 119], 1⟩ fsDevSplit [47, 119, 47, 116]
      = some ⟨[47, 119, 47, 116], Reason.crossesFilesystemBoundary⟩ ∧
    sigT fsDevSplit [[119], [116]] = some (NodeKind.dir, 2) ∧
    sigT (deleteDirectoryUI [47, 119] fsDevSplit ⟨[47, 119, 47, 116], [116], 0, [], true⟩)
      [[119], [116]] = none := by
  refine ⟨by decide, by decide, by decide⟩

/-- C5: ValidateTargets is a pure filter: it keeps, in input order,
exactly the candidates the Security Validator allows and whose
non-following stat finds an existing non-symlink directory; on the
five-kind instance (a valid directory /w/d, a symlinked directory /w/l, a
regular file /w/f, the outside path /o, the nonexistent path /w/n) it
returns exactly the one valid directory. -/
theorem c5_validate_targets_is_pure_filter (cwd : GoStr) (c : Cleaner) (fs : FsTree)
    (ts : List CleanupTarget) :
    ValidateTargets cwd c fs ts = ts.filter (fun t =>
      (validatePathSecurity cwd c fs t.path).isNone &&
        (match walkT fs (resolveSegs cwd t.path) with
         | none => false
         | some node => !isLinkT node && isDirT node)) ∧
    ValidateTargets [47, 119] ⟨[47, 119], 1⟩ fsFiveKinds
      [⟨[47, 119, 47, 100], [100], 0, [], false⟩,
       ⟨[47, 119, 47, 108], [108], 0, [], false⟩,
       ⟨[47, 119, 47, 102], [102], 0, [], false⟩,
       ⟨[47, 111], [111], 0, [], false⟩,
       ⟨[47, 119, 47, 110], [110], 0, [], false⟩]
      = [⟨[47, 119, 47, 100], [100], 0, [], false⟩] := by
  refine ⟨?_, by decide⟩
  induction ts with
  | nil => rfl
  | cons t rest ih =>
    rw [ValidateTargets, List.filter_cons]
    cases hv : validatePathSecurity cwd c fs t.path with
    | some e => simp [hv, ih]
    | none =>
      cases hw : walkT fs (resolveSegs cwd t.path) with
      | none => simp [hv, hw, ih]
      | some node =>
        by_cases hl : isLinkT node = true
        · simp [hv, hw, hl, ih]
        · by_cases hd : isDirT node = true
          · simp [hv, hw, hl, hd, ih]
          · simp [hv, hw, hl, hd, ih]

/-- C6: the entry loop of `secureRemoveAll` never aborts early — it
always continues with the remaining sibling entries (the append
decomposition), and an entry whose re-validation fails is skipped with no
mutation and no removal attempt — while the error the function returns to
the caller is exactly the failure of the final remove of the (by then
expected-empty) target directory itself. -/
theorem c6_entry_failures_skipped_final_remove_surfaces (cwd : GoStr) (c : Cleaner)
    (g : FsTree) (path nm : GoStr) (t : FsTree)
    (rest es1 es2 es : List (GoStr × FsTree)) (d : Nat) :
    (srmEntries cwd c g path (es1 ++ es2)
       = ((srmEntries cwd c (srmEntries cwd c g path es1).1 path es2).1,
          (srmEntries cwd c g path es1).2
            ++ (srmEntries cwd c (srmEntries cwd c g path es1).1 path es2).2)) ∧
    ((validatePathSecurity cwd c g (filepathJoin path nm)).isSome = true →
       srmEntries cwd c g path ((nm, t) :: rest) = srmEntries cwd c g path rest) ∧
    (walkT g (resolveSegs cwd path) = some (FsTree.dir es d) →
       (secureRemoveAll cwd c g path).2.1
         = (if (removeSegs (srmEntries cwd c g path es).1 (resolveSegs cwd path)).2
            then none else some DelError.removeFailed)) := by
  refine ⟨srmEntries_append cwd c path es1 es2 g, ?_, ?_⟩
  · intro hv
    rw [srmEntries_cons_eq, hv]
    simp
  · intro hw
    rw [secureRemoveAll, hw]
    show (srmNode cwd c g path (FsTree.dir es d)).2.1 = _
    rw [srmNode_dir_eq]

/-- C7: the scanner's size computation charges each regular file its
length rounded up to whole 4096-byte blocks, charges an empty file one
full block, charges symbolic links nothing (they are never descended
into), and sums these over a directory's entries; a target holding
exactly a 0-byte file and a 5000-byte file is sized 4096 + 8192 = 12288
bytes. -/
theorem c7_scanner_block_rounded_sizes (big : List Nat) (hbig : big.length = 5000)
    (nm1 nm2 : GoStr) (d dv1 dv2 : Nat) :
    (∀ (content : List Nat) (dv : Nat),
       calculateDirSize (FsTree.file content dv) = blockRound content.length) ∧
    (∀ (dest : GoStr) (dv : Nat), calculateDirSize (FsTree.link dest dv) = 0) ∧
    (∀ (es : List (GoStr × FsTree)) (dv : Nat),
       calculateDirSize (FsTree.dir es dv)
         = (es.map (fun e => calculateDirSize e.2)).sum) ∧
    blockRound 0 = 4096 ∧
    (∀ n, n ≤ blockRound n ∧ blockRound n % 4096 = 0 ∧
       (0 < n → blockRound n < n + 4096)) ∧
    calculateDirSize
        (FsTree.dir [(nm1, FsTree.file [] dv1), (nm2, FsTree.file big dv2)] d)
      = 12288 := by
  refine ⟨fun content dv => by rw [calculateDirSize],
    fun dest dv => by rw [calculateDirSize],
    fun es dv => calculateDirSize_dir es dv,
    by decide, ?_, ?_⟩
  · intro n
    rw [blockRound]
    split_ifs with h
    · omega
    · refine ⟨?_, ?_, ?_⟩ <;> omega
  · simp [calculateDirSize, calcEntries, blockRound, hbig]

/-- C7 witness: the block-rounding facts at the concrete 5000-byte
file. -/
theorem c7_scanner_block_rounded_sizes_witness :
    calculateDirSize
        (FsTree.dir [([97], FsTree.file [] 1),
                     ([98], FsTree.file (List.replicate 5000 0) 1)] 1)
      = 12288 :=
  (c7_scanner_block_rounded_sizes (List.replicate 5000 0)
    (by rw [List.length_replicate]) [97] [98] 1 1 1).2.2.2.2.2

/-- C8: a directory whose basename is in the Target Catalog is emitted as
a single work item without descending into it, and the scan of the
project instance (node_modules and .next recognized, src not, a
catalog-named dist inside node_modules never separately reported) yields
exactly the two targets node_modules and .next. -/
theorem c8_scan_reports_two_targets_and_prunes (path name : GoStr)
    (es : List (GoStr × FsTree)) (d : Nat) (hcat : isCleanupTarget name = true) :
    walkDirectory path name (FsTree.dir es d) = [⟨path, name, FsTree.dir es d⟩] ∧
    scanTargets [47, 112] [112] fsProject
      = [⟨ascii "/p/project/node_modules", ascii "node_modules", 0,
          ascii "Node.js/Bun.js dependencies", false⟩,
         ⟨ascii "/p/project/.next", ascii ".next", 0,
          ascii "Next.js build cache", false⟩] := by
  refine ⟨?_, by decide⟩
  rw [walkDirectory, if_pos hcat]

/-- C8 witness: the pruning fact at the concrete name node_modules. -/
theorem c8_scan_reports_two_targets_and_prunes_witness :
    walkDirectory [47, 113] (ascii "node_modules")
        (FsTree.dir [([97], FsTree.file [1] 1)] 1)
      = [⟨[47, 113], ascii "node_modules", FsTree.dir [([97], FsTree.file [1] 1)] 1⟩] :=
  (c8_scan_reports_two_targets_and_prunes [47, 113] (ascii "node_modules")
    [([97], FsTree.file [1] 1)] 1 (by decide)).1

/-- C10: absolute-path resolution already cleans the path, so the
canonical-form-mismatch branch of the validator can never fire: no DENY
it returns carries the normalization-mismatch reason. -/
theorem c10_normalization_mismatch_unreachable (cwd : GoStr) (c : Cleaner) (fs : FsTree)
    (p : GoStr) :
    filepathClean (filepathAbs cwd p) = filepathAbs cwd p ∧
    ∀ e, validatePathSecurity cwd c fs p = some e →
      e.reason ≠ Reason.normalizationMismatch := by
  refine ⟨filepathClean_filepathAbs cwd p, ?_⟩
  intro e h
  simp only [validatePathSecurity] at h
  split_ifs at h with h1 h2 h3 h4 h5 h6 h7
  · cases h; simp
  · cases h; simp
  · exact absurd (filepathClean_filepathAbs cwd p).symm h3
  · cases h; simp
  · cases h; simp
  · cases h; simp
  · cases h; simp
  · obtain ⟨par, he⟩ := vpcLoop_reason c fs (filepathAbs cwd p) _ _ e h
    rw [he]
    simp

/-- C9: the validator applies its checks in the specification's numbered
order — encoding integrity (UTF-8 then null byte), canonical-form match,
containment (prefix then root equality), relative-traversal re-check,
device boundary, ancestor symlink scan — and on every input it returns
the DENY of the first failing check, short-circuiting the rest: it equals
the first-failing-check composition of the six checks. -/
theorem firstSome_singleton (x : Option SecurityError) : firstSome [x] = x := by
  cases x <;> rfl

theorem c9_checks_applied_in_specified_order (cwd : GoStr) (c : Cleaner) (fs : FsTree)
    (p : GoStr) :
    validatePathSecurity cwd c fs p = validateSpecOrdered cwd c fs p := by
  simp only [validatePathSecurity, validateSpecOrdered, checkEncodingIntegrity,
    checkCanonicalForm, checkContainment, checkRelativeTraversal, checkDeviceBoundary,
    checkAncestorSymlinks]
  split_ifs <;> simp [firstSome, firstSome_singleton]

/-- C4: a candidate with a symlinked ancestor strictly between it and the
working directory is denied by the validator, even when its textual
canonical form lies beneath the working directory: the ancestor symlink
scan reaches that ancestor before the walk stops at the working
directory. -/
theorem c4_symlinked_ancestor_is_denied (cwd : GoStr) (c : Cleaner) (fs : FsTree)
    (p : GoStr) (sw q : List GoStr) (node : FsTree)
    (hcwd : isRooted cwd = true)
    (hwd : c.workingDir = renderAbs sw) (hgw : goodSegs sw = true)
    (hanc : q <+: segsOf (filepathAbs cwd p)) (hne_p : q ≠ segsOf (filepathAbs cwd p))
    (habove : sw <+: q) (hne_w : q ≠ sw)
    (hnode : walkT fs q = some node) (hlink : isLinkT node = true) :
    validatePathSecurity cwd c fs p ≠ none := by
  intro hv
  obtain ⟨-, -, -, -, hvpc⟩ := validate_none_parts cwd c fs p hv
  have habs : isGoodAbs (filepathAbs cwd p) = true := isGoodAbs_filepathAbs cwd p hcwd
  rw [validatePathComponents_eq c fs _ habs] at hvpc
  exact vpcRev_detect c fs (filepathAbs cwd p) sw hwd hgw q ⟨node, hnode, hlink⟩
    habove hne_w ((segsOf (filepathAbs cwd p)).reverse)
    (by rw [List.reverse_reverse]; exact (isGoodAbs_parts _ habs).1)
    (by rw [List.reverse_reverse]; exact hanc)
    (by rw [List.reverse_reverse]; exact hne_p)
    hvpc

/-- C4 witness: below the working directory /w, the candidate /w/s/x has
the symlinked ancestor /w/s; the validator denies it. -/
theorem c4_symlinked_ancestor_is_denied_witness :
    validatePathSecurity [47, 119] ⟨[47, 119], 1⟩ fsLinkAncestor
      [47, 119, 47, 115, 47, 120] ≠ none :=
  c4_symlinked_ancestor_is_denied [47, 119] ⟨[47, 119], 1⟩ fsLinkAncestor
    [47, 119, 47, 115, 47, 120] [[119]] [[119], [115]] (FsTree.link [47, 120] 1)
    (by decide) (by decide) (by decide) (by decide) (by decide) (by decide)
    (by decide) rfl rfl

/-- C1 (amended): every path that does not resolve strictly below the
working directory is denied by the validator — for a well-encoded path
(valid UTF-8, no null bytes) with reason outside-working-directory, or
cannot-delete-working-directory when the path resolves to the working
directory itself — and the deletion engine never attempts a filesystem
removal on such a path: every removal it attempts is on a path resolving
strictly below the working directory. -/
theorem c1_nondescendants_denied_and_never_removed (cwd : GoStr) (c : Cleaner)
    (fs : FsTree) (p target : GoStr)
    (hnot : ¬ StrictUnder cwd c p)
    (htg : isGoodAbs target = true) (hfs : goodTree fs = true) :
    (validatePathSecurity cwd c fs p).isSome = true ∧
    (utf8ValidString p = true → goContains [0] p = false →
      validatePathSecurity cwd c fs p
        = some ⟨p, if filepathAbs cwd p = c.workingDir
                   then Reason.cannotDeleteWorkingDir
                   else Reason.outsideWorkingDir⟩) ∧
    p ∉ (secureDeleteDirectory cwd c fs target).2.2 := by
  refine ⟨?_, ?_, ?_⟩
  · cases hv : validatePathSecurity cwd c fs p with
    | some e => rfl
    | none => exact absurd (validate_none_strictUnder cwd c fs p hv) hnot
  · intro hu hn
    have hclean : filepathAbs cwd p = filepathClean (filepathAbs cwd p) :=
      (filepathClean_filepathAbs cwd p).symm
    simp only [validatePathSecurity]
    rw [if_neg (by simp [hu]), if_neg (by simp [hn]),
      if_neg (fun hcontra => hcontra hclean)]
    by_cases hpre : goHasPrefix (filepathAbs cwd p ++ [47]) (c.workingDir ++ [47]) = true
    · have heq : filepathAbs cwd p = c.workingDir := by
        by_contra hne
        exact hnot ⟨hpre, hne⟩
      rw [if_neg (by simp [hpre]), if_pos heq, if_pos heq]
    · have hne : filepathAbs cwd p ≠ c.workingDir := by
        intro heq
        apply hpre
        rw [heq, goHasPrefix]
        exact List.isPrefixOf_iff_prefix.mpr (List.prefix_refl _)
      rw [if_pos (by simp [hpre]), if_neg hne]
  · intro hp
    exact hnot (secureDeleteDirectory_trace cwd c fs target htg hfs p hp)

/-- C1 witness: the outside path /x is denied with reason
outside-working-directory and appears in no removal of a deletion run on
the target /w/t. -/
theorem c1_nondescendants_denied_and_never_removed_witness :
    (validatePathSecurity [47, 119] ⟨[47, 119], 1⟩ fsWdOnly [47, 120]).isSome = true ∧
    (utf8ValidString [47, 120] = true → goContains [0] [47, 120] = false →
      validatePathSecurity [47, 119] ⟨[47, 119], 1⟩ fsWdOnly [47, 120]
        = some ⟨[47, 120], if filepathAbs [47, 119] [47, 120]
                               = (⟨[47, 119], 1⟩ : Cleaner).workingDir
                           then Reason.cannotDeleteWorkingDir
                           else Reason.outsideWorkingDir⟩) ∧
    [47, 120] ∉ (secureDeleteDirectory [47, 119] ⟨[47, 119], 1⟩ fsWdOnly
      [47, 119, 47, 116]).2.2 :=
  c1_nondescendants_denied_and_never_removed [47, 119] ⟨[47, 119], 1⟩ fsWdOnly
    [47, 120] [47, 119, 47, 116]
    (by simp only [StrictUnder]; decide) (by decide) (by decide)

/-- C1 counterexample: the working directory itself is not a strict
descendant of itself, and the validator does deny it, but with reason
cannot-delete-working-directory — not outside-working-directory and not
traversal, as the claim states. -/
theorem c1_counterexample_working_directory_reason :
    ¬ StrictUnder [47, 119] ⟨[47, 119], 1⟩ [47, 119] ∧
    validatePathSecurity [47, 119] ⟨[47, 119], 1⟩ fsWdOnly [47, 119]
      = some ⟨[47, 119], Reason.cannotDeleteWorkingDir⟩ ∧
    Reason.cannotDeleteWorkingDir ≠ Reason.outsideWorkingDir ∧
    Reason.cannotDeleteWorkingDir ≠ Reason.traversal :=
  ⟨by simp only [StrictUnder]; decide, by decide, by decide, by decide⟩

/-- C3 (amended): when a target directory's immediate child entry is a
symlink whose destination is disjoint from the target (neither an
ancestor nor a descendant of it), the recursive deletion leaves every
node below the destination untouched — every file there keeps its exact
byte content — and on success the target, the symlink entry with it, is
gone; the destination itself is never deleted. -/
theorem c3_external_symlink_destination_preserved (cwd : GoStr) (c : Cleaner)
    (fs : FsTree) (target nm dest : GoStr) (es : List (GoStr × FsTree)) (d d2 : Nat)
    (htg : isGoodAbs target = true) (hfs : goodTree fs = true)
    (hwalk : walkT fs (segsOf target) = some (FsTree.dir es d))
    (hchild : lookupEntry nm es = some (FsTree.link dest d2))
    (hinc1 : ¬ (segsOf target <+: segsOf dest))
    (hinc2 : ¬ (segsOf dest <+: segsOf target)) :
    sigT fs (segsOf target ++ [nm]) = some (NodeKind.link, d2) ∧
    (∀ q, segsOf dest <+: q →
       contentAt (secureRemoveAll cwd c fs target).1 q = contentAt fs q) ∧
    ((secureRemoveAll cwd c fs target).2.1 = none →
       sigT (secureRemoveAll cwd c fs target).1 (segsOf target ++ [nm]) = none) := by
  obtain ⟨hgs, hrend⟩ := isGoodAbs_parts target htg
  have hres : resolveSegs cwd target = segsOf target := by
    conv_lhs => rw [hrend]
    rw [resolveSegs_renderAbs cwd _ hgs]
  have hsra : secureRemoveAll cwd c fs target
      = srmNode cwd c fs target (FsTree.dir es d) := by
    rw [secureRemoveAll, hres, hwalk]
  have hnode : goodTree (FsTree.dir es d) = true := walkT_good _ fs _ hfs hwalk
  have hmaster := (srm_master (FsTree.dir es d)) cwd c fs target (segsOf target)
    hgs hrend hnode
  refine ⟨?_, ?_, ?_⟩
  · have hbefore : walkT fs (segsOf target ++ [nm]) = some (FsTree.link dest d2) := by
      rw [walkT_append, hwalk]
      show walkT (FsTree.dir es d) [nm] = _
      rw [walkT_dir_cons, hchild]
      rfl
    rw [sigT, hbefore]
    rfl
  · intro q hq
    have hwalkEq : walkT (srmNode cwd c fs target (FsTree.dir es d)).1 q = walkT fs q := by
      apply hmaster.1.1 q
      intro r hr
      rw [List.mem_singleton] at hr
      subst hr
      constructor
      · intro htq
        rcases List.prefix_or_prefix_of_prefix htq hq with h | h
        · exact hinc1 h
        · exact hinc2 h
      · intro hqt
        exact hinc2 (hq.trans hqt)
    rw [hsra, contentAt, contentAt, hwalkEq]
  · intro herr
    rw [hsra] at herr ⊢
    rw [srmNode_dir_eq] at herr ⊢
    rw [hres] at herr ⊢
    cases hb : (removeSegs (srmEntries cwd c fs target es).1 (segsOf target)).2 with
    | false =>
      rw [hb] at herr
      simp at herr
    | true =>
      have hgood : goodTree (srmEntries cwd c fs target es).1 = true :=
        ((srmEntries_master es) cwd c fs target (segsOf target) hgs hrend
          (goodTree_dir es d hnode)).2.1 hfs
      have hwn : walkT (removeSegs (srmEntries cwd c fs target es).1 (segsOf target)).1
          (segsOf target) = none :=
        removeSegs_succ_walk _ _ hgood hb
      rw [sigT, walkT_none_append _ _ [nm] hwn]
      rfl

/-- C3 witness: in fsLinkSide the target /w/t has the symlink child s
whose destination /w/e is a disjoint sibling; the run preserves
everything below /w/e and on success removes the symlink entry. -/
theorem c3_external_symlink_destination_preserved_witness :
    sigT fsLinkSide (segsOf [47, 119, 47, 116] ++ [[115]])
      = some (NodeKind.link, 1) ∧
    (∀ q, segsOf [47, 119, 47, 101] <+: q →
       contentAt (secureRemoveAll [47, 119] ⟨[47, 119], 1⟩ fsLinkSide
         [47, 119, 47, 116]).1 q = contentAt fsLinkSide q) ∧
    ((secureRemoveAll [47, 119] ⟨[47, 119], 1⟩ fsLinkSide [47, 119, 47, 116]).2.1 = none →
       sigT (secureRemoveAll [47, 119] ⟨[47, 119], 1⟩ fsLinkSide [47, 119, 47, 116]).1
         (segsOf [47, 119, 47, 116] ++ [[115]]) = none) :=
  c3_external_symlink_destination_preserved [47, 119] ⟨[47, 119], 1⟩ fsLinkSide
    [47, 119, 47, 116] [115] [47, 119, 47, 101]
    [([97], FsTree.file [5] 1), ([115], FsTree.link [47, 119, 47, 101] 1)] 1 1
    (by decide) (by decide) rfl rfl (by decide) (by decide)

/-- C3 counterexample: in fsLinkUp the target /w/t has an immediate
symlink child s whose destination /w lies outside the target (the target
is not a prefix of it), yet running the deletion erases the file /w/t/a,
which lies under the destination: the destination's files are not
byte-for-byte preserved when the destination is an ancestor of the
target. -/
theorem c3_counterexample_ancestor_destination :
    walkT fsLinkUp (segsOf [47, 119, 47, 116])
      = some (FsTree.dir [([97], FsTree.file [5] 1),
                          ([115], FsTree.link [47, 119] 1)] 1) ∧
    lookupEntry [115] [([97], FsTree.file [5] 1), ([115], FsTree.link [47, 119] 1)]
      = some (FsTree.link [47, 119] 1) ∧
    ¬ (segsOf [47, 119, 47, 116] <+: segsOf [47, 119]) ∧
    segsOf [47, 119] <+: [[119], [116], [97]] ∧
    contentAt fsLinkUp [[119], [116], [97]] = some [5] ∧
    contentAt (secureRemoveAll [47, 119] ⟨[47, 119], 1⟩ fsLinkUp [47, 119, 47, 116]).1
      [[119], [116], [97]] = none := by
  refine ⟨rfl, rfl, by decide, by decide, by decide, ?_⟩
  have h1 : walkT fsLinkUp (resolveSegs [47, 119] [47, 119, 47, 116])
      = some (FsTree.dir [([97], FsTree.file [5] 1),
                          ([115], FsTree.link [47, 119] 1)] 1) := rfl
  rw [secureRemoveAll, h1]
  show contentAt (srmNode [47, 119] ⟨[47, 119], 1⟩ fsLinkUp [47, 119, 47, 116]
    (FsTree.dir [([97], FsTree.file [5] 1),
                 ([115], FsTree.link [47, 119] 1)] 1)).1 [[119], [116], [97]] = none
  rw [srmNode_dir_eq, srmEntries_cons_eq]
  have e1 : (validatePathSecurity [47, 119] ⟨[47, 119], 1⟩ fsLinkUp
      (filepathJoin [47, 119, 47, 116] [97])).isSome = false := by decide
  rw [e1]
  simp only [Bool.false_eq_true, if_false, srmStep_file_eq]
  have r1 : (removeSegs fsLinkUp
      (resolveSegs [47, 119] (filepathJoin [47, 119, 47, 116] [97]))).1
      = FsTree.dir [([119], FsTree.dir [([116],
          FsTree.dir [([115], FsTree.link [47, 119] 1)] 1)] 1)] 1 := rfl
  rw [r1, srmEntries_cons_eq]
  have e2 : (validatePathSecurity [47, 119] ⟨[47, 119], 1⟩
      (FsTree.dir [([119], FsTree.dir [([116],
          FsTree.dir [([115], FsTree.link [47, 119] 1)] 1)] 1)] 1)
      (filepathJoin [47, 119, 47, 116] [115])).isSome = false := by decide
  rw [e2]
  simp only [Bool.false_eq_true, if_false, srmStep_link_eq]
  have r2 : (removeSegs (FsTree.dir [([119], FsTree.dir [([116],
          FsTree.dir [([115], FsTree.link [47, 119] 1)] 1)] 1)] 1)
      (resolveSegs [47, 119] (filepathJoin [47, 119, 47, 116] [115]))).1
      = FsTree.dir [([119], FsTree.dir [([116], FsTree.dir [] 1)] 1)] 1 := rfl
  rw [r2, srmEntries_nil_eq]
  decide

end Wdmt
